import Mathlib

/-!
Verification of the phrase-grouping / deduplication core of the
MappingSlayer-Dev PDFSEE scripts.

Numbers that Python stores as floats are modelled as rationals (`ℚ`); the
arithmetic performed by the scripts (sums, averages, differences, squared
Euclidean distances, threshold comparisons) is exact on the inputs considered.
`math.sqrt(d) < p` is modelled by the equivalent `0 ≤ p ∧ d < p^2`.
Python string operations are modelled on `String` / `List Char`
(`in` on strings is contiguous-substring, `str.isdigit` is
nonempty-and-all-digits, `list.sort` / `sorted` are stable sorts, modelled
with the structurally recursive stable sort `pySort` below).
-/

namespace MappingSlayer

/-- One OCR word box as produced by `extract_with_preprocessing`
(`run_multi_scan.py`, `enhanced_multiline_ocr.py`) and consumed by the
grouping / deduplication stages: a dict with keys
`text, confidence, x, y, width, height`.  The same record also serves for
the phrase dictionaries fed to `deduplicate_texts` and
`identify_multiline_room_names` (which only read `text, confidence, x, y`). -/
structure TextItem where
  text : String
  confidence : ℚ
  x : ℚ
  y : ℚ
  width : ℚ
  height : ℚ
deriving DecidableEq, Repr

/-- Sort key of `sorted(texts, key=lambda t: (t['y'], t['x']))`. -/
def leYX (a b : TextItem) : Bool :=
  decide (a.y < b.y ∨ (a.y = b.y ∧ a.x ≤ b.x))

/-- Sort key of `line.sort(key=lambda t: t['x'])` on plain items. -/
def leX (a b : TextItem) : Bool :=
  decide (a.x ≤ b.x)

/-- Sort key of `line.sort(key=lambda item: item[1]['x'])` on enumerated
items. -/
def leXE (a b : ℕ × TextItem) : Bool :=
  decide (a.2.x ≤ b.2.x)

/-- The one-pass chained grouping loop shared (copy-pasted) by the line
groupers and phrase builders of `ocr_server.py`,
`enhanced_multiline_ocr.py`, `run_enhanced_multi_scan.py` and
`Automapper.py`: walk the list, append the next element to the current
group when `close last next` holds for the **last element added**, and
otherwise flush the current group and start a new one.  `cur` is the
current group in reverse order (head = last added element). -/
def chainGroup (close : α → α → Bool) : List α → List α → List (List α)
  | [], cur => if cur.isEmpty then [] else [cur.reverse]
  | it :: rest, cur =>
    match cur with
    | [] => chainGroup close rest [it]
    | last :: prev =>
      if close last it then chainGroup close rest (it :: last :: prev)
      else (last :: prev).reverse :: chainGroup close rest [it]

theorem chainGroup_flatten (close : α → α → Bool) :
    ∀ (l cur : List α), (chainGroup close l cur).flatten = cur.reverse ++ l := by
  intro l
  induction l with
  | nil =>
    intro cur
    cases cur with
    | nil => simp [chainGroup]
    | cons a t => simp [chainGroup]
  | cons it rest ih =>
    intro cur
    cases cur with
    | nil => simpa [chainGroup] using ih [it]
    | cons last prev =>
      simp only [chainGroup]
      by_cases h : close last it = true
      · rw [if_pos h, ih (it :: last :: prev)]
        simp
      · rw [if_neg h]
        simp only [List.flatten_cons, ih [it]]
        simp

theorem chainGroup_groups_ne_nil (close : α → α → Bool) :
    ∀ (l cur : List α), ∀ g ∈ chainGroup close l cur, g ≠ [] := by
  intro l
  induction l with
  | nil =>
    intro cur g hg
    cases cur with
    | nil => simp [chainGroup] at hg
    | cons a t =>
      simp [chainGroup] at hg
      subst hg; simp
  | cons it rest ih =>
    intro cur g hg
    cases cur with
    | nil =>
      exact ih [it] g (by simpa [chainGroup] using hg)
    | cons last prev =>
      simp only [chainGroup] at hg
      by_cases h : close last it = true
      · rw [if_pos h] at hg
        exact ih (it :: last :: prev) g hg
      · rw [if_neg h] at hg
        rcases List.mem_cons.mp hg with h1 | h2
        · subst h1; simp
        · exact ih [it] g h2

/-- Elements inside every emitted group are pairwise linked by `close`
(consecutively), provided the seed group (in reverse) is so linked. -/
theorem chainGroup_chain (close : α → α → Bool) :
    ∀ (l cur : List α),
      List.Chain' (fun a b => close a b = true) cur.reverse →
      ∀ g ∈ chainGroup close l cur, List.Chain' (fun a b => close a b = true) g := by
  intro l
  induction l with
  | nil =>
    intro cur hcur g hg
    cases cur with
    | nil => simp [chainGroup] at hg
    | cons a t =>
      simp [chainGroup] at hg
      subst hg
      simpa using hcur
  | cons it rest ih =>
    intro cur hcur g hg
    cases cur with
    | nil =>
      exact ih [it] (by simp) g (by simpa [chainGroup] using hg)
    | cons last prev =>
      simp only [chainGroup] at hg
      by_cases h : close last it = true
      · rw [if_pos h] at hg
        refine ih (it :: last :: prev) ?_ g hg
        have hrw : (it :: last :: prev).reverse = (last :: prev).reverse ++ [it] := by
          simp
        rw [hrw, List.chain'_append]
        refine ⟨hcur, List.chain'_singleton it, ?_⟩
        intro x hx y hy
        simp only [List.head?_cons, Option.mem_def, Option.some.injEq] at hy
        subst hy
        rw [List.getLast?_reverse] at hx
        simp only [List.head?_cons, Option.mem_def, Option.some.injEq] at hx
        subst hx
        exact h
      · rw [if_neg h] at hg
        rcases List.mem_cons.mp hg with h1 | h2
        · subst h1; exact hcur
        · exact ih [it] (by simp) g h2

/-- Between two consecutive emitted groups the chaining condition fails:
the head of the next group was compared with the last element of the
previous group and rejected.  The second conjunct tracks the head of the
first emitted group (= the earliest element of `cur`). -/
theorem chainGroup_break (close : α → α → Bool) :
    ∀ (l cur : List α),
      List.Chain'
        (fun g1 g2 => ∃ a b, g1.getLast? = some a ∧ g2.head? = some b ∧
          close a b = false) (chainGroup close l cur) ∧
      (∀ c ∈ cur.getLast?, ∀ g ∈ (chainGroup close l cur).head?, g.head? = some c) := by
  intro l
  induction l with
  | nil =>
    intro cur
    cases cur with
    | nil => simp [chainGroup]
    | cons a t =>
      have hg1 : chainGroup close [] (a :: t) = [(a :: t).reverse] := by
        simp [chainGroup]
      constructor
      · rw [hg1]
        exact List.chain'_singleton _
      · intro c hc g hg
        rw [hg1] at hg
        simp only [List.head?_cons, Option.mem_def, Option.some.injEq] at hg
        subst hg
        simp only [List.head?_reverse]
        exact hc
  | cons it rest ih =>
    intro cur
    cases cur with
    | nil =>
      constructor
      · exact (ih [it]).1
      · intro c hc; simp at hc
    | cons last prev =>
      by_cases h : close last it = true
      · constructor
        · simp only [chainGroup]
          rw [if_pos h]
          exact (ih (it :: last :: prev)).1
        · intro c hc g hg
          simp only [chainGroup] at hg
          rw [if_pos h] at hg
          have hc2 : c ∈ (it :: last :: prev).getLast? := by
            simpa [List.getLast?_cons_cons] using hc
          exact (ih (it :: last :: prev)).2 c hc2 g hg
      · constructor
        · simp only [chainGroup]
          rw [if_neg h, List.chain'_cons']
          refine ⟨?_, (ih [it]).1⟩
          intro g2 hg2
          refine ⟨last, it, ?_, ?_, Bool.not_eq_true _ ▸ h⟩
          · rw [List.getLast?_reverse]; rfl
          · exact (ih [it]).2 it (by rfl) g2 hg2
        · intro c hc g hg
          simp only [chainGroup] at hg
          rw [if_neg h] at hg
          simp only [List.head?_cons, Option.mem_def, Option.some.injEq] at hg
          subst hg
          simp only [List.head?_reverse]
          exact hc

/-! ## Stable sorting

Python's `sorted` / `list.sort` is a stable sort: the output is ordered by
the key and elements with equal keys keep their input order.  That
specification determines the output uniquely, so any stable sorting
algorithm models it exactly; we use stable insertion (each element is
inserted after all earlier-inserted elements whose key is `≤` its own),
which is structurally recursive and therefore evaluates by `decide`/`rfl`
on concrete inputs. -/

/-- Insert `a` after every element `b` with `le b a` (so later-arriving
elements land after equal keys: stability). -/
def stableInsert (le : α → α → Bool) (a : α) : List α → List α
  | [] => [a]
  | b :: l => if le b a then b :: stableInsert le a l else a :: b :: l

/-- Stable sort: fold the input left to right, inserting each element into
the sorted prefix. -/
def pySort (le : α → α → Bool) (l : List α) : List α :=
  l.foldl (fun acc a => stableInsert le a acc) []

theorem stableInsert_perm (le : α → α → Bool) (a : α) :
    ∀ (l : List α), (stableInsert le a l).Perm (a :: l) := by
  intro l
  induction l with
  | nil => simp [stableInsert]
  | cons b l ih =>
    by_cases h : le b a = true
    · simp only [stableInsert, if_pos h]
      exact (ih.cons b).trans (List.Perm.swap a b l)
    · simp [stableInsert, if_neg h]

theorem pySort_perm (le : α → α → Bool) (l : List α) : (pySort le l).Perm l := by
  suffices h : ∀ (l acc : List α),
      (l.foldl (fun acc a => stableInsert le a acc) acc).Perm (acc ++ l) by
    simpa using h l []
  intro l
  induction l with
  | nil => simp
  | cons a l ih =>
    intro acc
    have h1 := ih (stableInsert le a acc)
    have h2 : (stableInsert le a acc ++ l).Perm (acc ++ a :: l) := by
      refine List.Perm.trans (List.Perm.append_right l (stableInsert_perm le a acc)) ?_
      exact List.perm_middle.symm.trans (by simp)
    exact h1.trans h2

theorem mem_stableInsert (le : α → α → Bool) (a x : α) (l : List α) :
    x ∈ stableInsert le a l ↔ x = a ∨ x ∈ l := by
  rw [(stableInsert_perm le a l).mem_iff]
  simp

theorem stableInsert_sorted (le : α → α → Bool)
    (htrans : ∀ x y z, le x y = true → le y z = true → le x z = true)
    (htot : ∀ x y, le x y = true ∨ le y x = true) (a : α) :
    ∀ (l : List α), List.Pairwise (fun x y => le x y = true) l →
      List.Pairwise (fun x y => le x y = true) (stableInsert le a l) := by
  intro l
  induction l with
  | nil => simp [stableInsert]
  | cons b l ih =>
    intro hp
    rw [List.pairwise_cons] at hp
    obtain ⟨hb, hl⟩ := hp
    by_cases h : le b a = true
    · simp only [stableInsert, if_pos h]
      rw [List.pairwise_cons]
      refine ⟨?_, ih hl⟩
      intro x hx
      rcases (mem_stableInsert le a x l).mp hx with rfl | hx2
      · exact h
      · exact hb x hx2
    · simp only [stableInsert, if_neg h]
      rw [List.pairwise_cons]
      have hab : le a b = true := by
        rcases htot a b with h1 | h1
        · exact h1
        · exact absurd h1 h
      refine ⟨?_, List.pairwise_cons.mpr ⟨hb, hl⟩⟩
      intro x hx
      rcases List.mem_cons.mp hx with rfl | hx2
      · exact hab
      · exact htrans a b x hab (hb x hx2)

theorem pySort_sorted (le : α → α → Bool)
    (htrans : ∀ x y z, le x y = true → le y z = true → le x z = true)
    (htot : ∀ x y, le x y = true ∨ le y x = true) (l : List α) :
    List.Pairwise (fun x y => le x y = true) (pySort le l) := by
  suffices h : ∀ (l acc : List α), List.Pairwise (fun x y => le x y = true) acc →
      List.Pairwise (fun x y => le x y = true)
        (l.foldl (fun acc a => stableInsert le a acc) acc) by
    exact h l [] (by simp)
  intro l
  induction l with
  | nil => intro acc h; simpa using h
  | cons a l ih =>
    intro acc hacc
    exact ih (stableInsert le a acc) (stableInsert_sorted le htrans htot a acc hacc)

/-! ## The multi-pass grouper of `enhanced_multiline_ocr.py` -/

/-- Minimum of a Python list of numbers (`min(...)`, callers pass nonempty
lists). -/
def minList : List ℚ → ℚ
  | [] => 0
  | v :: vs => vs.foldl min v

/-- Maximum of a Python list of numbers (`max(...)`, callers pass nonempty
lists). -/
def maxList : List ℚ → ℚ
  | [] => 0
  | v :: vs => vs.foldl max v

/-- A phrase entry as built by `group_multiline_texts`
(`enhanced_multiline_ocr.py` lines 190-200). -/
structure Phrase where
  text : String
  confidence : ℚ
  x : ℚ
  y : ℚ
  width : ℚ
  height : ℚ
  wordCount : ℕ
  yTolerance : ℤ
  indices : List ℕ
deriving DecidableEq, Repr

/-- The phrase entry construction of `group_multiline_texts` for one group
of enumerated word boxes: joined text, mean confidence, min/max bounding
box, member indices. -/
def mkPhrase (ytol : ℤ) (group : List (ℕ × TextItem)) : Phrase where
  text := String.intercalate " " (group.map (fun it => it.2.text))
  confidence := (group.map (fun it => it.2.confidence)).sum / group.length
  x := minList (group.map (fun it => it.2.x))
  y := minList (group.map (fun it => it.2.y))
  width := maxList (group.map (fun it => it.2.x + it.2.width)) -
    minList (group.map (fun it => it.2.x))
  height := maxList (group.map (fun it => it.2.y + it.2.height)) -
    minList (group.map (fun it => it.2.y))
  wordCount := group.length
  yTolerance := ytol
  indices := group.map (fun it => it.1)

/-- `abs(text['y'] - last_text['y']) <= y_tolerance` on enumerated items. -/
def closeYE (ytol : ℚ) (a b : ℕ × TextItem) : Bool :=
  decide (|b.2.y - a.2.y| ≤ ytol)

/-- `x_gap = curr['x'] - (prev['x'] + prev['width']); x_gap <= x_tolerance`
on enumerated items. -/
def closeXE (xtol : ℚ) (a b : ℕ × TextItem) : Bool :=
  decide (b.2.x - (a.2.x + a.2.width) ≤ xtol)

/-- One pass's line grouping (`enhanced_multiline_ocr.py` lines 116-137):
the loop iterates the enumerated sorted texts, `continue`s on indices in
`used_indices`, and chains the rest against the last box added to the
current line — identical to chaining the used-filtered list. -/
def enhancedLines (ytol : ℚ) (used : Finset ℕ) (items : List (ℕ × TextItem)) :
    List (List (ℕ × TextItem)) :=
  chainGroup (closeYE ytol) (items.filter (fun it => decide (it.1 ∉ used))) []

/-- One line's phrase grouping (lines 140-173): sort the line by `x`,
keep the entries not yet used, and chain adjacent words within
`x_tolerance`. -/
def lineGroups (xtol : ℚ) (used : Finset ℕ) (line : List (ℕ × TextItem)) :
    List (List (ℕ × TextItem)) :=
  chainGroup (closeXE xtol) ((pySort leXE line).filter (fun it => decide (it.1 ∉ used))) []

/-- Flattened member indices of a list of phrases. -/
def phraseIdxs (ps : List Phrase) : List ℕ :=
  (ps.map Phrase.indices).flatten

/-- The per-line loop of one pass (lines 139-206): for each line build the
phrase groups from its not-yet-used entries, emit a phrase per group and
mark the group's indices as used. -/
def runLines (ytol : ℤ) (xtol : ℚ) :
    List (List (ℕ × TextItem)) → Finset ℕ → List Phrase → List Phrase × Finset ℕ
  | [], used, acc => (acc, used)
  | line :: rest, used, acc =>
    let groups := lineGroups xtol used line
    runLines ytol xtol rest
      (used ∪ (groups.flatten.map (fun it => it.1)).toFinset)
      (acc ++ groups.map (mkPhrase ytol))

/-- One pass of `group_multiline_texts` at a given `y_tolerance`. -/
def runPass (ytol : ℤ) (xtol : ℚ) (items : List (ℕ × TextItem))
    (used : Finset ℕ) (acc : List Phrase) : List Phrase × Finset ℕ :=
  runLines ytol xtol (enhancedLines (ytol : ℚ) used items) used acc

/-- The pass loop over a list of tolerances. -/
def runPasses (xtol : ℚ) : List ℤ → List (ℕ × TextItem) → Finset ℕ → List Phrase →
    List Phrase × Finset ℕ
  | [], _, used, acc => (acc, used)
  | t :: ts, items, used, acc =>
    let r := runPass t xtol items used acc
    runPasses xtol ts items r.2 r.1

/-- `range(y_tolerance_range[0], y_tolerance_range[1]-1, -1)`: the
descending tolerance schedule (default `(10, 1)` gives 10, 9, …, 1). -/
def toleranceSchedule (hi lo : ℤ) : List ℤ :=
  (List.range (hi + 1 - lo).toNat).map (fun k => hi - k)

/-- `group_multiline_texts(texts, y_tolerance_range, x_tolerance)`
(`enhanced_multiline_ocr.py` lines 101-210): sort by `(y, x)`, then run
passes of line grouping + phrase building with descending `y_tolerance`,
each pass consuming only not-yet-used word boxes; returns `all_phrases`. -/
def groupMultilineTexts (texts : List TextItem) (hi lo : ℤ) (xtol : ℚ) : List Phrase :=
  (runPasses xtol (toleranceSchedule hi lo) ((pySort leYX texts).enum) ∅ []).1

/-- The final `used_indices` set of the same run. -/
def groupMultilineUsed (texts : List TextItem) (hi lo : ℤ) (xtol : ℚ) : Finset ℕ :=
  (runPasses xtol (toleranceSchedule hi lo) ((pySort leYX texts).enum) ∅ []).2

/-- The remaining/unmatched index set after the final pass: all input
indices minus the used ones (the complement computed as
`all_words_set - page_used_word_indices` in `Automapper.py` line 446,
and implicit in `group_multiline_texts`, whose `used_indices` ends up
holding exactly the phrase members). -/
def remainingIndices (texts : List TextItem) (hi lo : ℤ) (xtol : ℚ) : Finset ℕ :=
  Finset.range texts.length \ groupMultilineUsed texts hi lo xtol

theorem runLines_spec (ytol : ℤ) (xtol : ℚ) (items : List (ℕ × TextItem)) :
    ∀ (lines : List (List (ℕ × TextItem))) (used : Finset ℕ) (acc : List Phrase),
      (∀ line ∈ lines, (line.map Prod.fst).Nodup ∧ ∀ it ∈ line, it ∈ items) →
      ∃ newPs,
        (runLines ytol xtol lines used acc).1 = acc ++ newPs ∧
        (runLines ytol xtol lines used acc).2 = used ∪ (phraseIdxs newPs).toFinset ∧
        (phraseIdxs newPs).Nodup ∧
        (∀ i ∈ phraseIdxs newPs, i ∉ used) ∧
        (∀ p ∈ newPs, ∃ g, g ≠ [] ∧ p = mkPhrase ytol g ∧ ∀ it ∈ g, it ∈ items) := by
  intro lines
  induction lines with
  | nil =>
    intro used acc _
    exact ⟨[], by simp [runLines, phraseIdxs]⟩
  | cons line rest ih =>
    intro used acc hlines
    have hline := hlines line (by simp)
    have hflat : (lineGroups xtol used line).flatten =
        (pySort leXE line).filter (fun it => decide (it.1 ∉ used)) :=
      chainGroup_flatten _ _ _
    set groups := lineGroups xtol used line with hgroups
    -- indices newly claimed by this line
    have hmemitems : ∀ it ∈ groups.flatten, it ∈ items := by
      intro it hit
      rw [hflat] at hit
      have h1 : it ∈ pySort leXE line := List.mem_of_mem_filter hit
      have h2 : it ∈ line := ((pySort_perm leXE line).mem_iff).mp h1
      exact hline.2 it h2
    have hnotused : ∀ i ∈ groups.flatten.map (fun it => it.1), i ∉ used := by
      intro i hi
      rcases List.mem_map.mp hi with ⟨it, hit, rfl⟩
      rw [hflat] at hit
      have := List.of_mem_filter hit
      simpa using this
    have hnodup1 : (groups.flatten.map (fun it => it.1)).Nodup := by
      rw [hflat]
      have hsorted : (pySort leXE line).map Prod.fst |>.Nodup :=
        ((pySort_perm leXE line).map Prod.fst).nodup_iff.mpr hline.1
      have hsub : ((pySort leXE line).filter
          (fun it => decide (it.1 ∉ used))).map (fun it => it.1) |>.Sublist
          ((pySort leXE line).map Prod.fst) :=
        List.Sublist.map _ (List.filter_sublist _)
      exact hsorted.sublist hsub
    have hrest : ∀ l2 ∈ rest, (l2.map Prod.fst).Nodup ∧ ∀ it ∈ l2, it ∈ items := by
      intro l2 hl2
      exact hlines l2 (by simp [hl2])
    obtain ⟨newPs2, he1, he2, he3, he4, he5⟩ :=
      ih (used ∪ (groups.flatten.map (fun it => it.1)).toFinset)
        (acc ++ groups.map (mkPhrase ytol)) hrest
    refine ⟨groups.map (mkPhrase ytol) ++ newPs2, ?_, ?_, ?_, ?_, ?_⟩
    · show (runLines ytol xtol rest _ _).1 = _
      rw [he1, List.append_assoc]
    · show (runLines ytol xtol rest _ _).2 = _
      rw [he2]
      have hidx : phraseIdxs (groups.map (mkPhrase ytol) ++ newPs2) =
          groups.flatten.map (fun it => it.1) ++ phraseIdxs newPs2 := by
        simp only [phraseIdxs, List.map_append, List.flatten_append]
        congr 1
        rw [List.map_flatten]
        congr 1
        simp [List.map_map, mkPhrase, Function.comp]
      rw [hidx]
      ext i
      simp [Finset.mem_union, or_assoc]
    · have hidx : phraseIdxs (groups.map (mkPhrase ytol) ++ newPs2) =
          groups.flatten.map (fun it => it.1) ++ phraseIdxs newPs2 := by
        simp only [phraseIdxs, List.map_append, List.flatten_append]
        congr 1
        rw [List.map_flatten]
        congr 1
        simp [List.map_map, mkPhrase, Function.comp]
      rw [hidx, List.nodup_append]
      refine ⟨hnodup1, he3, ?_⟩
      intro i hi hi2
      have := he4 i hi2
      simp only [Finset.mem_union, List.mem_toFinset] at this
      exact this (Or.inr hi)
    · intro i hi
      have hidx : phraseIdxs (groups.map (mkPhrase ytol) ++ newPs2) =
          groups.flatten.map (fun it => it.1) ++ phraseIdxs newPs2 := by
        simp only [phraseIdxs, List.map_append, List.flatten_append]
        congr 1
        rw [List.map_flatten]
        congr 1
        simp [List.map_map, mkPhrase, Function.comp]
      rw [hidx] at hi
      rcases List.mem_append.mp hi with h1 | h2
      · exact hnotused i h1
      · have := he4 i h2
        simp only [Finset.mem_union, List.mem_toFinset] at this
        intro hu
        exact this (Or.inl hu)
    · intro p hp
      rcases List.mem_append.mp hp with h1 | h2
      · rcases List.mem_map.mp h1 with ⟨g, hg, rfl⟩
        exact ⟨g, chainGroup_groups_ne_nil _ _ _ g hg, rfl,
          fun it hit => hmemitems it (List.mem_flatten.mpr ⟨g, hg, hit⟩)⟩
      · exact he5 p h2

theorem phraseIdxs_append (a b : List Phrase) :
    phraseIdxs (a ++ b) = phraseIdxs a ++ phraseIdxs b := by
  simp [phraseIdxs]

theorem runPass_spec (ytol : ℤ) (xtol : ℚ) (items : List (ℕ × TextItem))
    (used : Finset ℕ) (acc : List Phrase)
    (hitems : (items.map Prod.fst).Nodup) :
    ∃ newPs,
      (runPass ytol xtol items used acc).1 = acc ++ newPs ∧
      (runPass ytol xtol items used acc).2 = used ∪ (phraseIdxs newPs).toFinset ∧
      (phraseIdxs newPs).Nodup ∧
      (∀ i ∈ phraseIdxs newPs, i ∉ used) ∧
      (∀ p ∈ newPs, ∃ g, g ≠ [] ∧ p = mkPhrase ytol g ∧ ∀ it ∈ g, it ∈ items) := by
  apply runLines_spec
  intro line hline
  have hflat : (enhancedLines (ytol : ℚ) used items).flatten =
      items.filter (fun it => decide (it.1 ∉ used)) := chainGroup_flatten _ _ _
  have hsub : line.Sublist (items.filter (fun it => decide (it.1 ∉ used))) := by
    rw [← hflat]
    exact List.sublist_flatten_of_mem hline
  constructor
  · refine List.Nodup.sublist (List.Sublist.map _ hsub) ?_
    exact List.Nodup.sublist (List.Sublist.map _ (List.filter_sublist _)) hitems
  · intro it hit
    exact List.mem_of_mem_filter (hsub.mem hit)

theorem runPasses_spec (xtol : ℚ) :
    ∀ (tols : List ℤ) (items : List (ℕ × TextItem)) (used : Finset ℕ) (acc : List Phrase),
      (items.map Prod.fst).Nodup →
      ∃ newPs,
        (runPasses xtol tols items used acc).1 = acc ++ newPs ∧
        (runPasses xtol tols items used acc).2 = used ∪ (phraseIdxs newPs).toFinset ∧
        (phraseIdxs newPs).Nodup ∧
        (∀ i ∈ phraseIdxs newPs, i ∉ used) ∧
        (∀ p ∈ newPs, ∃ t g, t ∈ tols ∧ g ≠ [] ∧ p = mkPhrase t g ∧ ∀ it ∈ g, it ∈ items) := by
  intro tols
  induction tols with
  | nil =>
    intro items used acc _
    exact ⟨[], by simp [runPasses, phraseIdxs]⟩
  | cons t ts ih =>
    intro items used acc hitems
    obtain ⟨ps1, h11, h12, h13, h14, h15⟩ := runPass_spec t xtol items used acc hitems
    obtain ⟨ps2, h21, h22, h23, h24, h25⟩ :=
      ih items (runPass t xtol items used acc).2 (runPass t xtol items used acc).1 hitems
    refine ⟨ps1 ++ ps2, ?_, ?_, ?_, ?_, ?_⟩
    · show (runPasses xtol ts items _ _).1 = _
      rw [h21, h11, List.append_assoc]
    · show (runPasses xtol ts items _ _).2 = _
      rw [h22, h12, phraseIdxs_append]
      ext i
      simp [Finset.mem_union, or_assoc]
    · rw [phraseIdxs_append, List.nodup_append]
      refine ⟨h13, h23, ?_⟩
      intro i hi hi2
      have := h24 i hi2
      rw [h12] at this
      simp only [Finset.mem_union, List.mem_toFinset] at this
      exact this (Or.inr hi)
    · intro i hi
      rw [phraseIdxs_append] at hi
      rcases List.mem_append.mp hi with h1 | h2
      · exact h14 i h1
      · have := h24 i h2
        rw [h12] at this
        simp only [Finset.mem_union, List.mem_toFinset] at this
        intro hu
        exact this (Or.inl hu)
    · intro p hp
      rcases List.mem_append.mp hp with h1 | h2
      · obtain ⟨g, hg1, hg2, hg3⟩ := h15 p h1
        exact ⟨t, g, by simp, hg1, hg2, hg3⟩
      · obtain ⟨u, g, hu, hg1, hg2, hg3⟩ := h25 p h2
        exact ⟨u, g, by simp [hu], hg1, hg2, hg3⟩

/-- With pairwise-disjoint member lists (`flatten` has no duplicates), an
index is counted by at most one list: the number of lists containing it is
1 when it occurs somewhere and 0 otherwise. -/
theorem countP_mem_of_flatten_nodup (i : ℕ) :
    ∀ (ls : List (List ℕ)), ls.flatten.Nodup →
      ls.countP (fun l => decide (i ∈ l)) = if i ∈ ls.flatten then 1 else 0 := by
  intro ls
  induction ls with
  | nil => simp
  | cons l rest ih =>
    intro hnd
    rw [List.flatten_cons, List.nodup_append] at hnd
    obtain ⟨hl, hrest, hdisj⟩ := hnd
    rw [List.countP_cons, ih hrest]
    by_cases hmem : i ∈ l
    · have hnot : i ∉ rest.flatten := fun h => hdisj hmem h
      simp [hmem, hnot]
    · by_cases hmem2 : i ∈ rest.flatten
      · simp [hmem, hmem2]
      · simp [hmem, hmem2]

/-- Full characterization of a `group_multiline_texts` run: the used set is
exactly the union of the produced member index lists, those lists are
globally duplicate-free (hence pairwise disjoint), and all indices are
in-range.  This is the engine behind C1's disjointness/coverage. -/
theorem groupMultilineTexts_partition (texts : List TextItem) (hi lo : ℤ) (xtol : ℚ) :
    (phraseIdxs (groupMultilineTexts texts hi lo xtol)).Nodup ∧
    groupMultilineUsed texts hi lo xtol =
      (phraseIdxs (groupMultilineTexts texts hi lo xtol)).toFinset ∧
    (∀ i ∈ phraseIdxs (groupMultilineTexts texts hi lo xtol), i < texts.length) := by
  have hnodup : (((pySort leYX texts).enum).map Prod.fst).Nodup := by
    rw [List.enum_map_fst]
    exact List.nodup_range _
  obtain ⟨newPs, h1, h2, h3, h4, h5⟩ :=
    runPasses_spec xtol (toleranceSchedule hi lo) ((pySort leYX texts).enum) ∅ [] hnodup
  have hps : groupMultilineTexts texts hi lo xtol = newPs := by
    rw [groupMultilineTexts, h1, List.nil_append]
  refine ⟨by rw [hps]; exact h3, ?_, ?_⟩
  · rw [groupMultilineUsed, h2, hps, Finset.empty_union]
  · intro i hi
    rw [hps] at hi
    rw [phraseIdxs, List.mem_flatten] at hi
    obtain ⟨l, hl, hil⟩ := hi
    rcases List.mem_map.mp hl with ⟨p, hp, rfl⟩
    obtain ⟨t, g, _, _, rfl, hg⟩ := h5 p hp
    rcases List.mem_map.mp hil with ⟨it, hit, rfl⟩
    have := List.fst_lt_of_mem_enum (hg it hit)
    rwa [(pySort_perm leYX texts).length_eq] at this

/-! ## The per-page multipass loop of `Automapper.py` (`process_all_pdfs`) -/

/-- One word tuple of PyMuPDF's `page.get_text("words")`:
`(x0, y0, x1, y1, text, block_no, line_no, word_no)`.  `process_all_pdfs`
reads `word[0]` (sort key), `word[1]` (line test), `word[0:4]` (bbox) and
`word[4]` (text). -/
structure AWord where
  x0 : ℚ
  y0 : ℚ
  x1 : ℚ
  y1 : ℚ
  text : String
  blockNo : ℕ
  lineNo : ℕ
  wordNo : ℕ
deriving DecidableEq, Repr

/-- `abs(word[1] - current_line[-1][1]) <= y_tolerance`. -/
def closeYA (ytol : ℚ) (a b : AWord) : Bool :=
  decide (|b.y0 - a.y0| ≤ ytol)

/-- `line.sort(key=lambda w: w[0])`. -/
def leXA (a b : AWord) : Bool :=
  decide (a.x0 ≤ b.x0)

/-- The line grouping of `process_all_pdfs` (`Automapper.py` lines
286-295): chained `y0` comparison over **all** words of the page (no used
filter; unlike `group_multiline_texts`, lines are rebuilt from scratch
each pass). -/
def amLines (ytol : ℚ) (words : List AWord) : List (List AWord) :=
  chainGroup (closeYA ytol) words []

/-- A candidate phrase of `process_all_pdfs` (lines 329-336): the dict
`{'phrase', 'bbox', 'word_indices', 'length', 'line_index',
'position_in_line'}`, plus the underlying word slice for bookkeeping. -/
structure ACand where
  phrase : String
  bx0 : ℚ
  by0 : ℚ
  bx1 : ℚ
  by1 : ℚ
  indices : List ℕ
  length : ℕ
  lineIdx : ℕ
  pos : ℕ
  wordsSlice : List AWord
deriving DecidableEq, Repr

/-- Candidate built from the slice of length `len` starting at `i` of a
sorted line: joined text, unioned bbox, and `words.index`-based member
indices. -/
def mkACand (words : List AWord) (lineIdx len i : ℕ) (sortedLine : List AWord) : ACand :=
  let slice := (sortedLine.drop i).take len
  { phrase := String.intercalate " " (slice.map AWord.text)
    bx0 := minList (slice.map AWord.x0)
    by0 := minList (slice.map AWord.y0)
    bx1 := maxList (slice.map AWord.x1)
    by1 := maxList (slice.map AWord.y1)
    indices := slice.map (fun w => words.indexOf w)
    length := len
    lineIdx := lineIdx
    pos := i
    wordsSlice := slice }

/-- The candidate enumeration for one line (lines 301-336): sort the line
left-to-right, then take every consecutive run of `phrase_length` words
for `phrase_length` from 1 to `min(5, len(line_words))`. -/
def lineCandidates (words : List AWord) (lineIdx : ℕ) (line : List AWord) : List ACand :=
  let sortedLine := pySort leXA line
  (List.range (min 5 sortedLine.length)).flatMap (fun k =>
    (List.range (sortedLine.length - (k + 1) + 1)).map (fun i =>
      mkACand words lineIdx (k + 1) i sortedLine))

/-- All candidate phrases of one pass. -/
def passCandidates (ytol : ℚ) (words : List AWord) : List ACand :=
  ((amLines ytol words).enum.map (fun p => lineCandidates words p.1 p.2)).flatten

/-- `potential_phrases.sort(key=lambda m: (-m['length'], m['line_index'],
m['position_in_line']))` (line 339): longest candidates first. -/
def leCand (a b : ACand) : Bool :=
  decide (b.length < a.length ∨ (a.length = b.length ∧
    (a.lineIdx < b.lineIdx ∨ (a.lineIdx = b.lineIdx ∧ a.pos ≤ b.pos))))

/-- The annotation selection loop (lines 345-443): walk the prioritized
candidates; skip one whose words are already used; skip one whose location
key was already annotated (its words stay unclaimed); otherwise annotate
it, record its location key and mark all its word indices used.  The LLM
call, dot drawing and legend bookkeeping do not affect which words are
claimed, and the location key (an f-string of file, page and dot center)
is abstracted into `key`. -/
def amSelect {κ : Type} [DecidableEq κ] (key : ACand → κ) :
    List ACand → Finset ℕ → Finset κ → List ACand → List ACand × Finset ℕ × Finset κ
  | [], used, locs, acc => (acc, used, locs)
  | c :: rest, used, locs, acc =>
    if c.indices.any (fun i => decide (i ∈ used)) then amSelect key rest used locs acc
    else if key c ∈ locs then amSelect key rest used locs acc
    else amSelect key rest (used ∪ c.indices.toFinset) (insert (key c) locs) (acc ++ [c])

/-- One pass of `process_all_pdfs` on a page. -/
def amPass {κ : Type} [DecidableEq κ] (key : ACand → κ) (words : List AWord) (ytol : ℚ)
    (used : Finset ℕ) (locs : Finset κ) (acc : List ACand) :
    List ACand × Finset ℕ × Finset κ :=
  amSelect key (pySort leCand (passCandidates ytol words)) used locs acc

/-- The multipass loop over a tolerance schedule, threading
`page_used_word_indices` and `annotated_locations` (`pass_used_word_indices`
is redundant: it is always a subset of the page set, both being extended
together). -/
def amPasses {κ : Type} [DecidableEq κ] (key : ACand → κ) (words : List AWord) :
    List ℤ → Finset ℕ → Finset κ → List ACand → List ACand × Finset ℕ × Finset κ
  | [], used, locs, acc => (acc, used, locs)
  | t :: ts, used, locs, acc =>
    let r := amPass key words (t : ℚ) used locs acc
    amPasses key words ts r.2.1 r.2.2 r.1

/-- The whole per-page multipass run: `for y_tolerance in range(10, 0, -1)`
starting from empty used/annotated state. -/
def processPage {κ : Type} [DecidableEq κ] (key : ACand → κ) (words : List AWord) :
    List ACand × Finset ℕ × Finset κ :=
  amPasses key words (toleranceSchedule 10 1) ∅ ∅ []

/-- `unmatched_indices = all_words_set - page_used_word_indices`
(line 446-447). -/
def amRemaining {κ : Type} [DecidableEq κ] (key : ACand → κ) (words : List AWord) : Finset ℕ :=
  Finset.range words.length \ (processPage key words).2.1

/-- Union of the member index sets of a list of candidates. -/
def unionIdx (cs : List ACand) : Finset ℕ :=
  cs.foldr (fun c s => c.indices.toFinset ∪ s) ∅

theorem mem_unionIdx {i : ℕ} : ∀ (cs : List ACand),
    i ∈ unionIdx cs ↔ ∃ c ∈ cs, i ∈ c.indices := by
  intro cs
  induction cs with
  | nil => simp [unionIdx]
  | cons c rest ih =>
    simp only [unionIdx, List.foldr_cons, Finset.mem_union, List.mem_toFinset]
    rw [show (List.foldr (fun c s => c.indices.toFinset ∪ s) ∅ rest) = unionIdx rest from rfl, ih]
    simp

theorem mem_unionIdx_cons {i : ℕ} (c : ACand) (rest : List ACand) :
    i ∈ unionIdx (c :: rest) ↔ i ∈ c.indices ∨ i ∈ unionIdx rest := by
  rw [mem_unionIdx]
  constructor
  · rintro ⟨c2, hc2, hi2⟩
    rcases List.mem_cons.mp hc2 with h | h
    · subst h; exact Or.inl hi2
    · exact Or.inr ((mem_unionIdx rest).mpr ⟨c2, h, hi2⟩)
  · rintro (h | h)
    · exact ⟨c, by simp, h⟩
    · obtain ⟨c2, hc2, hi2⟩ := (mem_unionIdx rest).mp h
      exact ⟨c2, by simp [hc2], hi2⟩

theorem unionIdx_append (cs1 cs2 : List ACand) :
    unionIdx (cs1 ++ cs2) = unionIdx cs1 ∪ unionIdx cs2 := by
  ext i
  simp only [Finset.mem_union, mem_unionIdx]
  constructor
  · rintro ⟨c, hc, hi⟩
    rcases List.mem_append.mp hc with h | h
    · exact Or.inl ⟨c, h, hi⟩
    · exact Or.inr ⟨c, h, hi⟩
  · rintro (⟨c, hc, hi⟩ | ⟨c, hc, hi⟩)
    · exact ⟨c, List.mem_append.mpr (Or.inl hc), hi⟩
    · exact ⟨c, List.mem_append.mpr (Or.inr hc), hi⟩

theorem amSelect_spec {κ : Type} [DecidableEq κ] (key : ACand → κ) :
    ∀ (cands : List ACand) (used : Finset ℕ) (locs : Finset κ) (acc : List ACand),
      ∃ newCs,
        (amSelect key cands used locs acc).1 = acc ++ newCs ∧
        (amSelect key cands used locs acc).2.1 = used ∪ unionIdx newCs ∧
        List.Pairwise (fun c1 c2 => ∀ i ∈ c1.indices, i ∉ c2.indices) newCs ∧
        (∀ c ∈ newCs, ∀ i ∈ c.indices, i ∉ used) ∧
        (∀ c ∈ newCs, c ∈ cands) := by
  intro cands
  induction cands with
  | nil =>
    intro used locs acc
    exact ⟨[], by simp [amSelect, unionIdx]⟩
  | cons c rest ih =>
    intro used locs acc
    by_cases h1 : c.indices.any (fun i => decide (i ∈ used)) = true
    · have hstep : amSelect key (c :: rest) used locs acc =
          amSelect key rest used locs acc := by
        simp [amSelect, h1]
      obtain ⟨newCs, e1, e2, e3, e4, e5⟩ := ih used locs acc
      exact ⟨newCs, by rw [hstep]; exact e1, by rw [hstep]; exact e2, e3, e4,
        fun c2 h => List.mem_cons_of_mem _ (e5 c2 h)⟩
    · by_cases h2 : key c ∈ locs
      · have hstep : amSelect key (c :: rest) used locs acc =
            amSelect key rest used locs acc := by
          simp [amSelect, h1, h2]
        obtain ⟨newCs, e1, e2, e3, e4, e5⟩ := ih used locs acc
        exact ⟨newCs, by rw [hstep]; exact e1, by rw [hstep]; exact e2, e3, e4,
          fun c2 h => List.mem_cons_of_mem _ (e5 c2 h)⟩
      · have hc : ∀ i ∈ c.indices, i ∉ used := by
          intro i hi hu
          exact h1 (List.any_eq_true.mpr ⟨i, hi, by simpa using hu⟩)
        obtain ⟨newCs, e1, e2, e3, e4, e5⟩ :=
          ih (used ∪ c.indices.toFinset) (insert (key c) locs) (acc ++ [c])
        have hstep : amSelect key (c :: rest) used locs acc =
            amSelect key rest (used ∪ c.indices.toFinset) (insert (key c) locs)
              (acc ++ [c]) := by
          simp [amSelect, h1, h2]
        refine ⟨c :: newCs, ?_, ?_, ?_, ?_, ?_⟩
        · rw [hstep, e1, List.append_assoc]
          rfl
        · rw [hstep, e2]
          have : unionIdx (c :: newCs) = c.indices.toFinset ∪ unionIdx newCs := by
            ext i
            rw [mem_unionIdx_cons]
            simp
          rw [this, Finset.union_assoc]
        · refine List.pairwise_cons.mpr ⟨?_, e3⟩
          intro c2 hc2 i hi hi2
          have := e4 c2 hc2 i hi2
          simp only [Finset.mem_union, List.mem_toFinset] at this
          exact this (Or.inr hi)
        · intro c2 hc2 i hi
          rcases List.mem_cons.mp hc2 with h | h
          · subst h; exact hc i hi
          · have := e4 c2 h i hi
            simp only [Finset.mem_union, List.mem_toFinset] at this
            intro hu
            exact this (Or.inl hu)
        · intro c2 hc2
          rcases List.mem_cons.mp hc2 with h | h
          · subst h; simp
          · exact List.mem_cons_of_mem _ (e5 c2 h)

theorem amPasses_spec {κ : Type} [DecidableEq κ] (key : ACand → κ) (words : List AWord) :
    ∀ (tols : List ℤ) (used : Finset ℕ) (locs : Finset κ) (acc : List ACand),
      ∃ newCs,
        (amPasses key words tols used locs acc).1 = acc ++ newCs ∧
        (amPasses key words tols used locs acc).2.1 = used ∪ unionIdx newCs ∧
        List.Pairwise (fun c1 c2 => ∀ i ∈ c1.indices, i ∉ c2.indices) newCs ∧
        (∀ c ∈ newCs, ∀ i ∈ c.indices, i ∉ used) ∧
        (∀ c ∈ newCs, ∃ t ∈ tols, c ∈ passCandidates (t : ℚ) words) := by
  intro tols
  induction tols with
  | nil =>
    intro used locs acc
    exact ⟨[], by simp [amPasses, unionIdx]⟩
  | cons t ts ih =>
    intro used locs acc
    obtain ⟨cs1, h11, h12, h13, h14, h15⟩ :=
      amSelect_spec key (pySort leCand (passCandidates (t : ℚ) words)) used locs acc
    obtain ⟨cs2, h21, h22, h23, h24, h25⟩ :=
      ih (amPass key words (t : ℚ) used locs acc).2.1
        (amPass key words (t : ℚ) used locs acc).2.2
        (amPass key words (t : ℚ) used locs acc).1
    have hpass1 : (amPass key words (t : ℚ) used locs acc).1 = acc ++ cs1 := h11
    have hpass2 : (amPass key words (t : ℚ) used locs acc).2.1 = used ∪ unionIdx cs1 := h12
    refine ⟨cs1 ++ cs2, ?_, ?_, ?_, ?_, ?_⟩
    · show (amPasses key words ts _ _ _).1 = _
      rw [h21, hpass1, List.append_assoc]
    · show (amPasses key words ts _ _ _).2.1 = _
      rw [h22, hpass2, unionIdx_append, Finset.union_assoc]
    · rw [List.pairwise_append]
      refine ⟨h13, h23, ?_⟩
      intro c1 hc1 c2 hc2 i hi1 hi2
      have := h24 c2 hc2 i hi2
      rw [hpass2] at this
      simp only [Finset.mem_union] at this
      exact this (Or.inr ((mem_unionIdx cs1).mpr ⟨c1, hc1, hi1⟩))
    · intro c hc i hi
      rcases List.mem_append.mp hc with h | h
      · exact h14 c h i hi
      · have := h24 c h i hi
        rw [hpass2] at this
        simp only [Finset.mem_union] at this
        intro hu
        exact this (Or.inl hu)
    · intro c hc
      rcases List.mem_append.mp hc with h | h
      · exact ⟨t, by simp,
          ((pySort_perm leCand (passCandidates (t : ℚ) words)).mem_iff).mp (h15 c h)⟩
      · obtain ⟨u, hu, hmem⟩ := h25 c h
        exact ⟨u, by simp [hu], hmem⟩

/-- Pairwise-disjoint member sets count any index at most once. -/
theorem countP_mem_of_pairwise_disjoint (i : ℕ) :
    ∀ (cs : List ACand),
      List.Pairwise (fun c1 c2 => ∀ j ∈ c1.indices, j ∉ c2.indices) cs →
      cs.countP (fun c => decide (i ∈ c.indices)) = if i ∈ unionIdx cs then 1 else 0 := by
  intro cs
  induction cs with
  | nil => simp [unionIdx]
  | cons c rest ih =>
    intro hp
    rw [List.pairwise_cons] at hp
    obtain ⟨hhead, htail⟩ := hp
    rw [List.countP_cons, ih htail]
    have hmem : i ∈ unionIdx (c :: rest) ↔ i ∈ c.indices ∨ i ∈ unionIdx rest :=
      mem_unionIdx_cons c rest
    by_cases h1 : i ∈ c.indices
    · have h2 : i ∉ unionIdx rest := by
        rw [mem_unionIdx]
        rintro ⟨c2, hc2, hi2⟩
        exact hhead c2 hc2 i h1 hi2
      simp [h1, h2, hmem.mpr (Or.inl h1)]
    · by_cases h2 : i ∈ unionIdx rest
      · simp [h1, h2, hmem.mpr (Or.inr h2)]
      · have : i ∉ unionIdx (c :: rest) := fun h => by
          rcases hmem.mp h with h | h
          · exact h1 h
          · exact h2 h
        simp [h1, h2, this]

/-- All member indices of every selected Automapper candidate are in-range:
`words.index` returns a position of the member word. -/
theorem processPage_indices_lt {κ : Type} [DecidableEq κ] (key : ACand → κ)
    (words : List AWord) :
    ∀ c ∈ (processPage key words).1, ∀ i ∈ c.indices, i < words.length := by
  obtain ⟨newCs, h1, _, _, _, h5⟩ := amPasses_spec key words (toleranceSchedule 10 1) ∅ ∅ []
  intro c hc i hi
  rw [processPage, h1, List.nil_append] at hc
  obtain ⟨t, _, hmem⟩ := h5 c hc
  rw [passCandidates, List.mem_flatten] at hmem
  obtain ⟨lc, hlc, hclc⟩ := hmem
  rcases List.mem_map.mp hlc with ⟨p, hpmem, rfl⟩
  rw [lineCandidates, List.mem_flatMap] at hclc
  obtain ⟨k, _, hk2⟩ := hclc
  rcases List.mem_map.mp hk2 with ⟨j, _, rfl⟩
  rw [mkACand] at hi
  simp only [List.mem_map] at hi
  obtain ⟨w, hw, rfl⟩ := hi
  have hwmem : w ∈ words := by
    have h2 : w ∈ pySort leXA p.2 :=
      List.mem_of_mem_drop (List.mem_of_mem_take hw)
    have h3 : w ∈ p.2 := ((pySort_perm leXA p.2).mem_iff).mp h2
    have h4 : p.2 ∈ amLines (t : ℚ) words := by
      have := List.mem_enum_iff_get?.mp hpmem
      exact List.get?_mem this
    have h5 : p.2.Sublist words := by
      have hsub := List.sublist_flatten_of_mem h4
      rw [amLines, chainGroup_flatten] at hsub
      simpa using hsub
    exact h5.mem h3
  exact List.indexOf_lt_length.mpr hwmem

/-- Full disjointness/coverage for the Automapper per-page run. -/
theorem processPage_partition {κ : Type} [DecidableEq κ] (key : ACand → κ)
    (words : List AWord) :
    List.Pairwise (fun c1 c2 => ∀ i ∈ c1.indices, i ∉ c2.indices)
      (processPage key words).1 ∧
    (processPage key words).2.1 = unionIdx (processPage key words).1 := by
  obtain ⟨newCs, h1, h2, h3, _, _⟩ := amPasses_spec key words (toleranceSchedule 10 1) ∅ ∅ []
  have hcs : (processPage key words).1 = newCs := by
    rw [processPage, h1, List.nil_append]
  constructor
  · rw [hcs]; exact h3
  · have h2a : (processPage key words).2.1 = ∅ ∪ unionIdx newCs := h2
    rw [h2a, hcs, Finset.empty_union]

/-- C1.  For every multi-pass grouping run — `group_multiline_texts` over
any word-box list, and the per-page multipass selection loop of
`process_all_pdfs` over any word list — the produced phrases' member index
sets are pairwise disjoint, and every input index lies in exactly one
produced phrase's member index set or else in the remaining/unmatched set
computed after the final pass (the complement of the used set), never in
both and never in neither. -/
theorem claim_C1_multipass_disjoint_coverage (texts : List TextItem) (hi lo : ℤ)
    (xtol : ℚ) {κ : Type} [DecidableEq κ] (key : ACand → κ) (words : List AWord) :
    (((groupMultilineTexts texts hi lo xtol).map Phrase.indices).flatten.Nodup) ∧
    (∀ i, i < texts.length →
      (((groupMultilineTexts texts hi lo xtol).map Phrase.indices).countP
          (fun l => decide (i ∈ l)) = 1 ∧ i ∉ remainingIndices texts hi lo xtol) ∨
      (((groupMultilineTexts texts hi lo xtol).map Phrase.indices).countP
          (fun l => decide (i ∈ l)) = 0 ∧ i ∈ remainingIndices texts hi lo xtol)) ∧
    List.Pairwise (fun c1 c2 => ∀ i ∈ c1.indices, i ∉ c2.indices)
      (processPage key words).1 ∧
    (∀ i, i < words.length →
      ((processPage key words).1.countP (fun c => decide (i ∈ c.indices)) = 1 ∧
        i ∉ amRemaining key words) ∨
      ((processPage key words).1.countP (fun c => decide (i ∈ c.indices)) = 0 ∧
        i ∈ amRemaining key words)) := by
  obtain ⟨hnd, hused, _⟩ := groupMultilineTexts_partition texts hi lo xtol
  have hnd2 : ((groupMultilineTexts texts hi lo xtol).map Phrase.indices).flatten.Nodup := hnd
  obtain ⟨hpw, hpused⟩ := processPage_partition key words
  refine ⟨hnd2, ?_, hpw, ?_⟩
  · intro i hilt
    have hcount := countP_mem_of_flatten_nodup i
      ((groupMultilineTexts texts hi lo xtol).map Phrase.indices) hnd2
    have hflat : ((groupMultilineTexts texts hi lo xtol).map Phrase.indices).flatten =
        phraseIdxs (groupMultilineTexts texts hi lo xtol) := rfl
    have hrem : i ∈ remainingIndices texts hi lo xtol ↔
        i ∉ phraseIdxs (groupMultilineTexts texts hi lo xtol) := by
      rw [remainingIndices, Finset.mem_sdiff, hused]
      simp [Finset.mem_range, hilt]
    by_cases hmem : i ∈ phraseIdxs (groupMultilineTexts texts hi lo xtol)
    · left
      rw [hcount, hflat, if_pos hmem]
      exact ⟨rfl, fun h => (hrem.mp h) hmem⟩
    · right
      rw [hcount, hflat, if_neg hmem]
      exact ⟨rfl, hrem.mpr hmem⟩
  · intro i hilt
    have hcount := countP_mem_of_pairwise_disjoint i ((processPage key words).1) hpw
    have hrem : i ∈ amRemaining key words ↔ i ∉ unionIdx (processPage key words).1 := by
      rw [amRemaining, Finset.mem_sdiff, hpused]
      simp [Finset.mem_range, hilt]
    by_cases hmem : i ∈ unionIdx (processPage key words).1
    · left
      rw [hcount, if_pos hmem]
      exact ⟨rfl, fun h => (hrem.mp h) hmem⟩
    · right
      rw [hcount, if_neg hmem]
      exact ⟨rfl, hrem.mpr hmem⟩

/-- A concrete word box for instantiating hypothesis-bearing theorems. -/
def witnessBox : TextItem :=
  { text := "BOILER", confidence := 96, x := 10, y := 100, width := 30, height := 10 }

/-- A concrete PyMuPDF-style word for the Automapper instantiations. -/
def witnessWord : AWord :=
  { x0 := 10, y0 := 100, x1 := 40, y1 := 110, text := "BOILER",
    blockNo := 0, lineNo := 0, wordNo := 0 }

theorem claim_C1_multipass_disjoint_coverage_witness :
    (((groupMultilineTexts [witnessBox] 10 1 50).map Phrase.indices).flatten.Nodup) ∧
    ((((groupMultilineTexts [witnessBox] 10 1 50).map Phrase.indices).countP
        (fun l => decide (0 ∈ l)) = 1 ∧ 0 ∉ remainingIndices [witnessBox] 10 1 50) ∨
      (((groupMultilineTexts [witnessBox] 10 1 50).map Phrase.indices).countP
        (fun l => decide (0 ∈ l)) = 0 ∧ 0 ∈ remainingIndices [witnessBox] 10 1 50)) ∧
    List.Pairwise (fun c1 c2 => ∀ i ∈ c1.indices, i ∉ c2.indices)
      (processPage (fun c => c.phrase) [witnessWord]).1 ∧
    (((processPage (fun c => c.phrase) [witnessWord]).1.countP
        (fun c => decide (0 ∈ c.indices)) = 1 ∧
        0 ∉ amRemaining (fun c => c.phrase) [witnessWord]) ∨
      ((processPage (fun c => c.phrase) [witnessWord]).1.countP
        (fun c => decide (0 ∈ c.indices)) = 0 ∧
        0 ∈ amRemaining (fun c => c.phrase) [witnessWord])) := by
  obtain ⟨h1, h2, h3, h4⟩ :=
    claim_C1_multipass_disjoint_coverage [witnessBox] 10 1 50
      (fun c => c.phrase) [witnessWord]
  exact ⟨h1, h2 0 (by decide), h3, h4 0 (by decide)⟩

/-- C10.  In `process_all_pdfs`' phrase enumeration every candidate phrase
consists of between 1 and 5 consecutive words of a single (sorted) line —
the cap is `min(5, len(line_words))` — and every selected/annotated phrase
is such a candidate of one of the passes. -/
theorem claim_C10_phrase_length_cap {κ : Type} [DecidableEq κ] (key : ACand → κ)
    (words : List AWord) (ytol : ℚ) :
    (∀ c ∈ passCandidates ytol words,
      1 ≤ c.length ∧ c.length ≤ 5 ∧ c.wordsSlice.length = c.length ∧
      ∃ line, line ∈ (amLines ytol words).map (fun l => pySort leXA l) ∧
        c.wordsSlice = (line.drop c.pos).take c.length) ∧
    (∀ c ∈ (processPage key words).1,
      ∃ t, t ∈ toleranceSchedule 10 1 ∧ c ∈ passCandidates (t : ℚ) words) := by
  constructor
  · intro c hc
    rw [passCandidates, List.mem_flatten] at hc
    obtain ⟨lc, hlc, hclc⟩ := hc
    rcases List.mem_map.mp hlc with ⟨p, hpmem, rfl⟩
    rw [lineCandidates, List.mem_flatMap] at hclc
    obtain ⟨k, hk, hk2⟩ := hclc
    rcases List.mem_map.mp hk2 with ⟨j, hj, rfl⟩
    rw [List.mem_range] at hk hj
    have hk5 : k + 1 ≤ 5 := by
      have := Nat.lt_min.mp hk
      omega
    have hkn : k + 1 ≤ (pySort leXA p.2).length := by
      have := Nat.lt_min.mp hk
      omega
    have hjn : j + (k + 1) ≤ (pySort leXA p.2).length := by omega
    refine ⟨by simp [mkACand], by simpa [mkACand] using hk5, ?_, ?_⟩
    · show ((pySort leXA p.2).drop j |>.take (k + 1)).length = k + 1
      rw [List.length_take, List.length_drop]
      omega
    · refine ⟨pySort leXA p.2, ?_, rfl⟩
      have : p.2 ∈ amLines ytol words := by
        have hget := List.mem_enum_iff_get?.mp hpmem
        exact List.get?_mem hget
      exact List.mem_map.mpr ⟨p.2, this, rfl⟩
  · intro c hc
    obtain ⟨newCs, h1, _, _, _, h5⟩ :=
      amPasses_spec key words (toleranceSchedule 10 1) ∅ ∅ []
    have hcs : (processPage key words).1 = newCs := by
      rw [processPage, h1, List.nil_append]
    rw [hcs] at hc
    obtain ⟨t, ht, hmem⟩ := h5 c hc
    exact ⟨t, ht, hmem⟩

theorem claim_C10_phrase_length_cap_witness :
    (1 ≤ (mkACand [witnessWord] 0 1 0 [witnessWord]).length ∧
      (mkACand [witnessWord] 0 1 0 [witnessWord]).length ≤ 5 ∧
      (mkACand [witnessWord] 0 1 0 [witnessWord]).wordsSlice.length =
        (mkACand [witnessWord] 0 1 0 [witnessWord]).length ∧
      ∃ line, line ∈ (amLines 10 [witnessWord]).map (fun l => pySort leXA l) ∧
        (mkACand [witnessWord] 0 1 0 [witnessWord]).wordsSlice =
          (line.drop (mkACand [witnessWord] 0 1 0 [witnessWord]).pos).take
            (mkACand [witnessWord] 0 1 0 [witnessWord]).length) := by
  refine (claim_C10_phrase_length_cap (fun c => c.phrase) [witnessWord] 10).1
    (mkACand [witnessWord] 0 1 0 [witnessWord]) ?_
  decide

/-! ## The classifier call `query_llm` (`Automapper.py` lines 21-88) -/

/-- Outcome of one HTTP attempt, as observed by `query_llm`:

* `requestError` — the request, `raise_for_status()` or `response.json()`
  raises a `RequestException`; caught by the handler, so the loop retries.
* `uncaughtError` — the request succeeds but the response's JSON shape
  makes line 60 or 63 raise *outside* the `json.JSONDecodeError` handler
  and outside the `requests.exceptions.RequestException` handler: a body
  `{"choices": []}` makes `result.get("choices", [{}])[0]` raise
  `IndexError`, a non-object body makes `.get` raise `AttributeError`, a
  non-string `"content"` makes `json.loads` raise `TypeError`.  Nothing
  catches these, so `query_llm` propagates the exception.
* `badJson` — the extracted `content` string is not valid JSON; the inner
  `except json.JSONDecodeError` returns the `"UNKNOWN"`/original-text
  fallback.
* `ok st fm` — a well-shaped response whose `SignType` / `FullMessage`
  fields may each be absent (`data.get` defaults apply). -/
inductive LLMOutcome where
  | requestError
  | uncaughtError
  | badJson
  | ok (signType : Option String) (fullMessage : Option String)
deriving DecidableEq, Repr

/-- The classifier result dict `{"SignType": ..., "FullMessage": ...}`. -/
structure SignResult where
  signType : String
  fullMessage : String
deriving DecidableEq, Repr

/-- The retry loop of `query_llm`, by remaining attempts.  Returns the
outcome — `Except.ok` a result dict, or `Except.error ()` when an
exception escapes the function — together with the number of attempts made
and the total time slept (`time.sleep(config.retry_delay)` after every
failed attempt except the last, i.e. while
`attempt < config.max_retries - 1`).  `attemptIdx` is the Python loop
variable, `slept` the accumulated sleep time.  An `uncaughtError` attempt
aborts the whole call at once: the exception is raised past the
`RequestException` handler and out of the loop. -/
def queryLLMGo (delay : ℚ) (text : String) (outcomes : ℕ → LLMOutcome) :
    ℕ → ℕ → ℚ → Except Unit SignResult × ℕ × ℚ
  | 0, attemptIdx, slept => (.ok ⟨"UNKNOWN", text⟩, attemptIdx, slept)
  | remaining + 1, attemptIdx, slept =>
    match outcomes attemptIdx with
    | .ok st fm => (.ok ⟨st.getD "UNKNOWN", fm.getD text⟩, attemptIdx + 1, slept)
    | .badJson => (.ok ⟨"UNKNOWN", text⟩, attemptIdx + 1, slept)
    | .uncaughtError => (.error (), attemptIdx + 1, slept)
    | .requestError =>
      if remaining = 0 then (.ok ⟨"UNKNOWN", text⟩, attemptIdx + 1, slept)
      else queryLLMGo delay text outcomes remaining (attemptIdx + 1) (slept + delay)

/-- `query_llm(config, text, debug_log)`: up to `max_retries` attempts with
`retry_delay` sleeps between failed request attempts; a JSON-decode
failure or missing fields fall back to `"UNKNOWN"` / the original text;
exhaustion of all retries returns the same fallback; an uncaught
exception on a successful-but-malformed response propagates. -/
def queryLLM (maxRetries : ℕ) (delay : ℚ) (text : String)
    (outcomes : ℕ → LLMOutcome) : Except Unit SignResult × ℕ × ℚ :=
  queryLLMGo delay text outcomes maxRetries 0 0

theorem queryLLMGo_fail (delay : ℚ) (text : String) (outcomes : ℕ → LLMOutcome) :
    ∀ (remaining attemptIdx : ℕ) (slept : ℚ),
      (∀ i, attemptIdx ≤ i → i < attemptIdx + remaining → outcomes i = .requestError) →
      queryLLMGo delay text outcomes remaining attemptIdx slept =
        (.ok ⟨"UNKNOWN", text⟩, attemptIdx + remaining,
          slept + ((remaining - 1 : ℕ) : ℚ) * delay) := by
  intro remaining
  induction remaining with
  | zero =>
    intro attemptIdx slept _
    simp [queryLLMGo]
  | succ rem ih =>
    intro attemptIdx slept hfail
    have h0 : outcomes attemptIdx = .requestError :=
      hfail attemptIdx (le_refl _) (by omega)
    cases hr : rem with
    | zero =>
      subst hr
      simp [queryLLMGo, h0]
    | succ rem2 =>
      subst hr
      have hstep : queryLLMGo delay text outcomes (rem2 + 1 + 1) attemptIdx slept =
          queryLLMGo delay text outcomes (rem2 + 1) (attemptIdx + 1) (slept + delay) := by
        simp [queryLLMGo, h0]
      rw [hstep, ih (attemptIdx + 1) (slept + delay) (fun i h1 h2 => hfail i (by omega) (by omega))]
      have harith : slept + delay + ((rem2 + 1 - 1 : ℕ) : ℚ) * delay =
          slept + ((rem2 + 1 + 1 - 1 : ℕ) : ℚ) * delay := by
        have h1 : ((rem2 + 1 - 1 : ℕ) : ℚ) = (rem2 : ℚ) := by norm_num
        have h2 : ((rem2 + 1 + 1 - 1 : ℕ) : ℚ) = (rem2 : ℚ) + 1 := by
          push_cast
          norm_num
        rw [h1, h2]
        ring
      rw [harith]
      have hcount : attemptIdx + 1 + (rem2 + 1) = attemptIdx + (rem2 + 1 + 1) := by omega
      rw [hcount]

theorem queryLLMGo_attempts_le (delay : ℚ) (text : String) (outcomes : ℕ → LLMOutcome) :
    ∀ (remaining attemptIdx : ℕ) (slept : ℚ),
      (queryLLMGo delay text outcomes remaining attemptIdx slept).2.1 ≤
        attemptIdx + remaining := by
  intro remaining
  induction remaining with
  | zero => intro attemptIdx slept; simp [queryLLMGo]
  | succ rem ih =>
    intro attemptIdx slept
    cases h : outcomes attemptIdx with
    | ok st fm => simp [queryLLMGo, h]
    | badJson => simp [queryLLMGo, h]
    | uncaughtError => simp [queryLLMGo, h]
    | requestError =>
      by_cases hr : rem = 0
      · subst hr; simp [queryLLMGo, h]
      · have hstep : queryLLMGo delay text outcomes (rem + 1) attemptIdx slept =
            queryLLMGo delay text outcomes rem (attemptIdx + 1) (slept + delay) := by
          simp [queryLLMGo, h, hr]
        rw [hstep]
        have := ih (attemptIdx + 1) (slept + delay)
        omega

/-- C9.  The handled paths of `query_llm` behave as the claim says: when
every attempt raises a `RequestException`, the call makes exactly
`max_retries` attempts, sleeps `(max_retries - 1) * retry_delay` in total
(a fixed delay between consecutive attempts), and returns the fallback
`"UNKNOWN"` carrying the original input text unchanged, and no run ever
makes more than `max_retries` attempts.  But the claim's "always returns
a usable result and never raises" is false of the program: when an
attempt's request *succeeds* with the malformed body `{"choices": []}`,
line 60's `result.get("choices", [{}])[0]` raises `IndexError` outside
the `RequestException` handler, and the call propagates the exception on
its very first attempt (`Except.error`, one attempt, no sleep, no
fallback) instead of returning a result dict. -/
theorem claim_C9_query_llm_fallback (maxRetries : ℕ) (delay : ℚ) (text : String) :
    queryLLM maxRetries delay text (fun _ => .requestError) =
      (.ok ⟨"UNKNOWN", text⟩, maxRetries, ((maxRetries - 1 : ℕ) : ℚ) * delay) ∧
    (∀ outcomes : ℕ → LLMOutcome,
      (queryLLM maxRetries delay text outcomes).2.1 ≤ maxRetries) ∧
    queryLLM (maxRetries + 1) delay text (fun _ => .uncaughtError) =
      (.error (), 1, 0) := by
  refine ⟨?_, ?_, ?_⟩
  · rw [queryLLM, queryLLMGo_fail delay text (fun _ => .requestError) maxRetries 0 0
      (fun i h1 h2 => rfl)]
    simp
  · intro outcomes
    simpa using queryLLMGo_attempts_le delay text outcomes maxRetries 0 0
  · rw [queryLLM, queryLLMGo]

/-! ## Duplicate reduction (`run_multi_scan.py` lines 103-150,
`deduplication_demo.py` lines 30-107) -/

/-- `text_similarity(text1, text2)`: 1.0 on exact match; 0.8 when one
string is a contiguous substring (Python `in`) of the other; otherwise the
number of characters of `text1` that occur somewhere in `text2` divided by
the longer length (0 when both are empty, an unreachable guard). -/
def textSimilarity (t1 t2 : String) : ℚ :=
  if t1 = t2 then 1
  else if t1.data <:+: t2.data ∨ t2.data <:+: t1.data then 4/5
  else
    if 0 < max t1.length t2.length then
      ((t1.data.filter (fun c => decide (c ∈ t2.data))).length : ℚ) /
        ((max t1.length t2.length : ℕ) : ℚ)
    else 0

/-- Squared Euclidean distance between two item anchors. -/
def distSq (t1 t2 : TextItem) : ℚ :=
  (t1.x - t2.x) ^ 2 + (t1.y - t2.y) ^ 2

/-- `math.sqrt(distSq) < position_threshold`, expressed without square
roots: equivalent to `0 ≤ p` and `distSq < p²`. -/
def closePos (p : ℚ) (t1 t2 : TextItem) : Bool :=
  decide (0 ≤ p ∧ distSq t1 t2 < p ^ 2)

/-- The inner absorption scan of `deduplicate_texts`: starting from the
seed `text1`, walk all enumerated texts, skip used ones, and absorb any
within `position_threshold` whose similarity to the **seed** is at least
`similarity_threshold`, marking it used. -/
def dedupAbsorb (p s : ℚ) (t1 : TextItem) :
    List (ℕ × TextItem) → Finset ℕ → List TextItem × Finset ℕ
  | [], used => ([], used)
  | (j, t2) :: rest, used =>
    if j ∈ used then dedupAbsorb p s t1 rest used
    else if closePos p t1 t2 = true ∧ s ≤ textSimilarity t1.text t2.text then
      let r := dedupAbsorb p s t1 rest (insert j used)
      (t2 :: r.1, r.2)
    else dedupAbsorb p s t1 rest used

/-- The outer grouping loop of `deduplicate_texts`: each not-yet-used item
seeds a group and absorbs all qualifying remaining items in one pass
(seed-greedy, order-dependent clustering). -/
def dedupGroupsGo (p s : ℚ) (all : List (ℕ × TextItem)) :
    List (ℕ × TextItem) → Finset ℕ → List (List TextItem)
  | [], _ => []
  | (i, t1) :: rest, used =>
    if i ∈ used then dedupGroupsGo p s all rest used
    else
      let r := dedupAbsorb p s t1 all (insert i used)
      (t1 :: r.1) :: dedupGroupsGo p s all rest r.2

/-- The clusters formed by `deduplicate_texts`. -/
def dedupGroups (texts : List TextItem) (p s : ℚ) : List (List TextItem) :=
  dedupGroupsGo p s texts.enum texts.enum ∅

/-- `max(group, key=lambda t: (t['confidence'], len(t['text'])))`: CPython
`max` keeps the first maximal element, replacing the current best only on a
strictly greater key (lexicographic on confidence then text length). -/
def pickBest (b t2 : TextItem) : TextItem :=
  if b.confidence < t2.confidence ∨
      (b.confidence = t2.confidence ∧ b.text.length < t2.text.length)
  then t2 else b

def bestOf : List TextItem → TextItem
  | [] => { text := "", confidence := 0, x := 0, y := 0, width := 0, height := 0 }
  | t :: ts => ts.foldl pickBest t

/-- `deduplicate_texts(texts, position_threshold, similarity_threshold)`:
group by seed-greedy position/similarity clustering, then keep the best
member of each group. -/
def deduplicateTexts (texts : List TextItem) (p s : ℚ) : List TextItem :=
  (dedupGroups texts p s).map bestOf

/-- The `(confidence, len(text))` key order: `t` does not beat `b`. -/
def confKeyLe (t b : TextItem) : Prop :=
  t.confidence < b.confidence ∨
    (t.confidence = b.confidence ∧ t.text.length ≤ b.text.length)

theorem confKeyLe_refl (t : TextItem) : confKeyLe t t :=
  Or.inr ⟨rfl, le_refl _⟩

theorem confKeyLe_trans {a b c : TextItem} (h1 : confKeyLe a b) (h2 : confKeyLe b c) :
    confKeyLe a c := by
  rcases h1 with h1 | ⟨e1, l1⟩
  · rcases h2 with h2 | ⟨e2, _⟩
    · exact Or.inl (h1.trans h2)
    · exact Or.inl (e2 ▸ h1)
  · rcases h2 with h2 | ⟨e2, l2⟩
    · exact Or.inl (e1 ▸ h2)
    · exact Or.inr ⟨e1.trans e2, l1.trans l2⟩

theorem pickBest_left (b t2 : TextItem) : confKeyLe b (pickBest b t2) := by
  rw [pickBest]
  by_cases h : b.confidence < t2.confidence ∨
      (b.confidence = t2.confidence ∧ b.text.length < t2.text.length)
  · rw [if_pos h]
    rcases h with h | ⟨e, l⟩
    · exact Or.inl h
    · exact Or.inr ⟨e, l.le⟩
  · rw [if_neg h]
    exact confKeyLe_refl b

theorem pickBest_right (b t2 : TextItem) : confKeyLe t2 (pickBest b t2) := by
  rw [pickBest]
  by_cases h : b.confidence < t2.confidence ∨
      (b.confidence = t2.confidence ∧ b.text.length < t2.text.length)
  · rw [if_pos h]
    exact confKeyLe_refl t2
  · rw [if_neg h]
    push_neg at h
    obtain ⟨h1, h2⟩ := h
    rcases lt_or_eq_of_le h1 with hlt | heq
    · exact Or.inl hlt
    · exact Or.inr ⟨heq, h2 heq.symm⟩

theorem pickBest_cases (b t2 : TextItem) : pickBest b t2 = b ∨ pickBest b t2 = t2 := by
  rw [pickBest]
  by_cases h : b.confidence < t2.confidence ∨
      (b.confidence = t2.confidence ∧ b.text.length < t2.text.length)
  · rw [if_pos h]; exact Or.inr rfl
  · rw [if_neg h]; exact Or.inl rfl

theorem foldl_pickBest_spec :
    ∀ (ts : List TextItem) (b : TextItem),
      confKeyLe b (ts.foldl pickBest b) ∧
      (ts.foldl pickBest b = b ∨ ts.foldl pickBest b ∈ ts) ∧
      (∀ t ∈ ts, confKeyLe t (ts.foldl pickBest b)) := by
  intro ts
  induction ts with
  | nil =>
    intro b
    exact ⟨confKeyLe_refl b, Or.inl rfl, by simp⟩
  | cons t2 ts ih =>
    intro b
    obtain ⟨ih1, ih2, ih3⟩ := ih (pickBest b t2)
    refine ⟨confKeyLe_trans (pickBest_left b t2) ih1, ?_, ?_⟩
    · rcases ih2 with h | h
      · rcases pickBest_cases b t2 with hc | hc
        · exact Or.inl (by rw [List.foldl_cons, h, hc])
        · exact Or.inr (by rw [List.foldl_cons, h, hc]; simp)
      · exact Or.inr (by rw [List.foldl_cons]; simp [h])
    · intro t ht
      rcases List.mem_cons.mp ht with rfl | ht2
      · exact confKeyLe_trans (pickBest_right b t) ih1
      · exact ih3 t ht2

theorem bestOf_mem {g : List TextItem} (h : g ≠ []) : bestOf g ∈ g := by
  cases g with
  | nil => exact absurd rfl h
  | cons t ts =>
    rcases (foldl_pickBest_spec ts t).2.1 with h2 | h2
    · rw [bestOf, h2]; simp
    · rw [bestOf]; simp [h2]

theorem bestOf_max {g : List TextItem} {t : TextItem} (h : t ∈ g) :
    confKeyLe t (bestOf g) := by
  cases g with
  | nil => simp at h
  | cons t2 ts =>
    rcases List.mem_cons.mp h with rfl | h2
    · exact (foldl_pickBest_spec ts t).1
    · exact (foldl_pickBest_spec ts t2).2.2 t h2

theorem dedupGroupsGo_ne_nil (p s : ℚ) (all : List (ℕ × TextItem)) :
    ∀ (rem : List (ℕ × TextItem)) (used : Finset ℕ),
      ∀ g ∈ dedupGroupsGo p s all rem used, g ≠ [] := by
  intro rem
  induction rem with
  | nil => intro used g hg; simp [dedupGroupsGo] at hg
  | cons it rest ih =>
    intro used g hg
    rw [dedupGroupsGo] at hg
    by_cases h : it.1 ∈ used
    · rw [if_pos h] at hg
      exact ih used g hg
    · rw [if_neg h] at hg
      rcases List.mem_cons.mp hg with h1 | h2
      · subst h1; simp
      · exact ih _ g h2

/-- The two-scan input of example scenario 2. -/
def scanBoxA : TextItem :=
  { text := "BOILER RM", confidence := 96, x := 2649.5, y := 189.3, width := 0, height := 0 }

/-- The second scan's report of the same room. -/
def scanBoxB : TextItem :=
  { text := "BOILER RM", confidence := 92, x := 2650.2, y := 189.8, width := 0, height := 0 }

/-- C2.  The Duplicate Reducer emits exactly one item per cluster, namely a
member that is maximal for the `(confidence, len(text))` key (highest
confidence, ties to the longest text); on the two-scan "BOILER RM" input
of scenario 2 with thresholds 15 / 0.7 it emits exactly the single label
"BOILER RM" with confidence 96. -/
theorem claim_C2_dedup_representatives (texts : List TextItem) (p s : ℚ) :
    (deduplicateTexts texts p s).length = (dedupGroups texts p s).length ∧
    (∀ g ∈ dedupGroups texts p s, bestOf g ∈ g ∧ ∀ t ∈ g, confKeyLe t (bestOf g)) ∧
    deduplicateTexts [scanBoxA, scanBoxB] 15 (7/10) = [scanBoxA] ∧
    scanBoxA.text = "BOILER RM" ∧ scanBoxA.confidence = 96 := by
  refine ⟨by simp [deduplicateTexts], ?_, ?_, rfl, rfl⟩
  · intro g hg
    exact ⟨bestOf_mem (dedupGroupsGo_ne_nil p s texts.enum texts.enum ∅ g hg),
      fun t ht => bestOf_max ht⟩
  · norm_num [deduplicateTexts, dedupGroups, dedupGroupsGo, dedupAbsorb, bestOf,
      pickBest, closePos, distSq, textSimilarity, scanBoxA, scanBoxB,
      List.enum, List.enumFrom]

theorem claim_C2_dedup_representatives_witness :
    [scanBoxA, scanBoxB] ∈ dedupGroups [scanBoxA, scanBoxB] 15 (7/10) ∧
    bestOf [scanBoxA, scanBoxB] ∈ [scanBoxA, scanBoxB] ∧
    confKeyLe scanBoxB (bestOf [scanBoxA, scanBoxB]) ∧
    deduplicateTexts [scanBoxA, scanBoxB] 15 (7/10) = [scanBoxA] := by
  have hmem : [scanBoxA, scanBoxB] ∈ dedupGroups [scanBoxA, scanBoxB] 15 (7/10) := by
    norm_num [dedupGroups, dedupGroupsGo, dedupAbsorb, closePos, distSq,
      textSimilarity, scanBoxA, scanBoxB, List.enum, List.enumFrom]
  have h := (claim_C2_dedup_representatives [scanBoxA, scanBoxB] 15 (7/10)).2
  exact ⟨hmem, (h.1 [scanBoxA, scanBoxB] hmem).1,
    (h.1 [scanBoxA, scanBoxB] hmem).2 scanBoxB (by simp), h.2.1⟩

/-- C3.  `text_similarity` returns 1.0 exactly on equal strings, 0.8 when
one (unequal) string is a substring of the other, and otherwise the count
of characters of the first string that occur in the second (positionwise
membership, not multiset matching) divided by the longer length; in
particular `text_similarity(a, a) = 1.0` for every `a`. -/
theorem claim_C3_text_similarity (a b : String) :
    (a = b → textSimilarity a b = 1) ∧
    (a ≠ b → (a.data <:+: b.data ∨ b.data <:+: a.data) → textSimilarity a b = 4/5) ∧
    (a ≠ b → ¬(a.data <:+: b.data ∨ b.data <:+: a.data) →
      textSimilarity a b =
        ((a.data.filter (fun c => decide (c ∈ b.data))).length : ℚ) /
          ((max a.length b.length : ℕ) : ℚ)) ∧
    textSimilarity a a = 1 := by
  refine ⟨?_, ?_, ?_, ?_⟩
  · intro h
    rw [textSimilarity, if_pos h]
  · intro h1 h2
    rw [textSimilarity, if_neg h1, if_pos h2]
  · intro h1 h2
    have hmax : 0 < max a.length b.length := by
      by_contra hc
      push_neg at hc
      have ha : a.length = 0 := by omega
      have hb : b.length = 0 := by omega
      have ha2 : a.data = [] := List.length_eq_zero.mp ha
      have hb2 : b.data = [] := List.length_eq_zero.mp hb
      exact h1 (String.ext (ha2.trans hb2.symm))
    rw [textSimilarity, if_neg h1, if_neg h2, if_pos hmax]
  · rw [textSimilarity, if_pos rfl]

theorem claim_C3_text_similarity_witness :
    ("MECH" : String) ≠ "MECH RM" ∧
    (("MECH" : String).data <:+: ("MECH RM" : String).data ∨
      ("MECH RM" : String).data <:+: ("MECH" : String).data) ∧
    textSimilarity "MECH" "MECH RM" = 4/5 ∧
    ("AB" : String) ≠ "BA" ∧
    ¬(("AB" : String).data <:+: ("BA" : String).data ∨
      ("BA" : String).data <:+: ("AB" : String).data) ∧
    textSimilarity "AB" "BA" =
      ((("AB" : String).data.filter (fun c => decide (c ∈ ("BA" : String).data))).length : ℚ) /
        ((max ("AB" : String).length ("BA" : String).length : ℕ) : ℚ) ∧
    textSimilarity "BOILER RM" "BOILER RM" = 1 := by
  refine ⟨by decide, Or.inl (by decide), ?_, by decide, ?_, ?_, ?_⟩
  · exact (claim_C3_text_similarity "MECH" "MECH RM").2.1 (by decide) (Or.inl (by decide))
  · decide
  · exact (claim_C3_text_similarity "AB" "BA").2.2.1 (by decide) (by decide)
  · exact (claim_C3_text_similarity "BOILER RM" "BOILER RM").2.2.2

theorem dedupAbsorb_mem (p s : ℚ) (t1 : TextItem) :
    ∀ (l : List (ℕ × TextItem)) (used : Finset ℕ) (t : TextItem),
      t ∈ (dedupAbsorb p s t1 l used).1 → ∃ j, (j, t) ∈ l := by
  intro l
  induction l with
  | nil => intro used t ht; simp [dedupAbsorb] at ht
  | cons it rest ih =>
    intro used t ht
    rw [dedupAbsorb] at ht
    by_cases h1 : it.1 ∈ used
    · rw [if_pos h1] at ht
      obtain ⟨j, hj⟩ := ih used t ht
      exact ⟨j, by simp [hj]⟩
    · rw [if_neg h1] at ht
      by_cases h2 : closePos p t1 it.2 = true ∧ s ≤ textSimilarity t1.text it.2.text
      · rw [if_pos h2] at ht
        rcases List.mem_cons.mp ht with h | h
        · exact ⟨it.1, by simp [h]⟩
        · obtain ⟨j, hj⟩ := ih (insert it.1 used) t h
          exact ⟨j, by simp [hj]⟩
      · rw [if_neg h2] at ht
        obtain ⟨j, hj⟩ := ih used t ht
        exact ⟨j, by simp [hj]⟩

theorem dedupGroupsGo_mem (p s : ℚ) (all : List (ℕ × TextItem)) :
    ∀ (rem : List (ℕ × TextItem)) (used : Finset ℕ) (g : List TextItem),
      g ∈ dedupGroupsGo p s all rem used →
      ∀ t ∈ g, (∃ j, (j, t) ∈ all) ∨ (∃ j, (j, t) ∈ rem) := by
  intro rem
  induction rem with
  | nil => intro used g hg; simp [dedupGroupsGo] at hg
  | cons it rest ih =>
    intro used g hg t ht
    rw [dedupGroupsGo] at hg
    by_cases h1 : it.1 ∈ used
    · rw [if_pos h1] at hg
      rcases ih used g hg t ht with h | ⟨j, hj⟩
      · exact Or.inl h
      · exact Or.inr ⟨j, by simp [hj]⟩
    · rw [if_neg h1] at hg
      rcases List.mem_cons.mp hg with h | h
      · subst h
        rcases List.mem_cons.mp ht with h2 | h2
        · exact Or.inr ⟨it.1, by simp [h2]⟩
        · obtain ⟨j, hj⟩ := dedupAbsorb_mem p s it.2 all (insert it.1 used) t h2
          exact Or.inl ⟨j, hj⟩
      · rcases ih _ g h t ht with h2 | ⟨j, hj⟩
        · exact Or.inl h2
        · exact Or.inr ⟨j, by simp [hj]⟩

/-- Every label emitted by `deduplicate_texts` is one of the input items. -/
theorem deduplicateTexts_subset (texts : List TextItem) (p s : ℚ) :
    ∀ t ∈ deduplicateTexts texts p s, t ∈ texts := by
  intro t ht
  rw [deduplicateTexts] at ht
  rcases List.mem_map.mp ht with ⟨g, hg, rfl⟩
  have hne : g ≠ [] := dedupGroupsGo_ne_nil p s texts.enum texts.enum ∅ g hg
  have hmem := bestOf_mem hne
  have := dedupGroupsGo_mem p s texts.enum texts.enum ∅ g hg (bestOf g) hmem
  rcases this with ⟨j, hj⟩ | ⟨j, hj⟩
  · exact List.get?_mem (List.mem_enum_iff_get?.mp hj)
  · exact List.get?_mem (List.mem_enum_iff_get?.mp hj)

/-- Cluster counterexample seed: low-confidence group seed. -/
def dupA : TextItem :=
  { text := "XX", confidence := 50, x := 0, y := 0, width := 0, height := 0 }

/-- Higher-confidence member absorbed by `dupA`'s cluster but positioned
at its edge. -/
def dupB : TextItem :=
  { text := "XX", confidence := 90, x := 14, y := 0, width := 0, height := 0 }

/-- Item outside the seed's radius (28 ≥ 15) but within radius of `dupB`. -/
def dupC : TextItem :=
  { text := "XX", confidence := 80, x := 28, y := 0, width := 0, height := 0 }

/-- C4 counterexample.  `deduplicate_texts` is **not** idempotent: on
`[dupA, dupB, dupC]` with thresholds 15 / 0.7, the first run clusters
`{A, B}` (seeded at A, which is too far from C) and `{C}`, returning
`[B, C]`; the second run clusters `{B, C}` (their distance is 14 < 15) and
returns `[B]`, dropping the label `C` that the first run kept. -/
theorem claim_C4_counterexample :
    deduplicateTexts [dupA, dupB, dupC] 15 (7/10) = [dupB, dupC] ∧
    deduplicateTexts (deduplicateTexts [dupA, dupB, dupC] 15 (7/10)) 15 (7/10) = [dupB] ∧
    dupC ∈ deduplicateTexts [dupA, dupB, dupC] 15 (7/10) ∧
    dupC ∉ deduplicateTexts (deduplicateTexts [dupA, dupB, dupC] 15 (7/10)) 15 (7/10) := by
  have h1 : deduplicateTexts [dupA, dupB, dupC] 15 (7/10) = [dupB, dupC] := by
    norm_num [deduplicateTexts, dedupGroups, dedupGroupsGo, dedupAbsorb, bestOf,
      pickBest, closePos, distSq, textSimilarity, dupA, dupB, dupC,
      List.enum, List.enumFrom]
  have h2 : deduplicateTexts [dupB, dupC] 15 (7/10) = [dupB] := by
    norm_num [deduplicateTexts, dedupGroups, dedupGroupsGo, dedupAbsorb, bestOf,
      pickBest, closePos, distSq, textSimilarity, dupB, dupC,
      List.enum, List.enumFrom]
  refine ⟨h1, by rw [h1, h2], by rw [h1]; simp, ?_⟩
  rw [h1, h2]
  norm_num [dupB, dupC]

/-- C4 amended.  Re-running the Duplicate Reducer on its own output can
merge further (the counterexample above), so idempotence fails; what does
hold is that the second run's labels are a subset of the first run's —
dedup never invents labels, each output label is one of its inputs. -/
theorem claim_C4_dedup_second_run_subset (texts : List TextItem) (p s : ℚ) :
    ∀ t ∈ deduplicateTexts (deduplicateTexts texts p s) p s,
      t ∈ deduplicateTexts texts p s :=
  deduplicateTexts_subset (deduplicateTexts texts p s) p s

theorem claim_C4_dedup_second_run_subset_witness :
    dupB ∈ deduplicateTexts (deduplicateTexts [dupA, dupB, dupC] 15 (7/10)) 15 (7/10) ∧
    dupB ∈ deduplicateTexts [dupA, dupB, dupC] 15 (7/10) := by
  have hmem : dupB ∈ deduplicateTexts (deduplicateTexts [dupA, dupB, dupC] 15 (7/10))
      15 (7/10) := by
    norm_num [deduplicateTexts, dedupGroups, dedupGroupsGo, dedupAbsorb, bestOf,
      pickBest, closePos, distSq, textSimilarity, dupA, dupB, dupC,
      List.enum, List.enumFrom]
  exact ⟨hmem, claim_C4_dedup_second_run_subset [dupA, dupB, dupC] 15 (7/10) dupB hmem⟩

/-! ## `group_texts_into_phrases` (`ocr_server.py` lines 168-228) -/

/-- A phrase dict of `ocr_server.py` (lines 218-226).  `display_x` /
`display_y` duplicate `x` / `y` via `.get('display_x', x)` for inputs that
carry no display coordinates, so they are not modelled separately. -/
structure ServerPhrase where
  text : String
  confidence : ℚ
  x : ℚ
  y : ℚ
  wordCount : ℕ
deriving DecidableEq, Repr

/-- `abs(text['y'] - current_line[-1]['y']) <= y_tolerance`. -/
def closeYS (ytol : ℚ) (a b : TextItem) : Bool :=
  decide (|b.y - a.y| ≤ ytol)

/-- `x_gap = line[i]['x'] - (current_phrase[-1]['x'] +
current_phrase[-1]['width']); x_gap <= x_tolerance`. -/
def closeXS (xtol : ℚ) (a b : TextItem) : Bool :=
  decide (b.x - (a.x + a.width) ≤ xtol)

/-- The Line Grouper of `group_texts_into_phrases`: sort by `(y, x)`, then
chain consecutive items whose `y` differs from the **last added** item's
`y` by at most `y_tolerance`. -/
def serverLines (texts : List TextItem) (ytol : ℚ) : List (List TextItem) :=
  chainGroup (closeYS ytol) (pySort leYX texts) []

/-- The Phrase Builder on one line: sort left-to-right by `x`, then chain
words whose gap to the previous word's right edge is `≤ x_tolerance`
(inclusive boundary). -/
def serverLineGroups (line : List TextItem) (xtol : ℚ) : List (List TextItem) :=
  chainGroup (closeXS xtol) (pySort leX line) []

/-- First element of a nonempty group (`group[0]`). -/
def firstItem : List TextItem → TextItem
  | [] => { text := "", confidence := 0, x := 0, y := 0, width := 0, height := 0 }
  | t :: _ => t

/-- The phrase dict construction (lines 214-226): joined text, mean
confidence, and the **first** (leftmost) member's `x` and `y` — no extent
fields. -/
def mkServerPhrase (g : List TextItem) : ServerPhrase :=
  { text := String.intercalate " " (g.map TextItem.text)
    confidence := (g.map TextItem.confidence).sum / g.length
    x := (firstItem g).x
    y := (firstItem g).y
    wordCount := g.length }

/-- `group_texts_into_phrases(texts, y_tolerance, x_tolerance)`. -/
def groupTextsIntoPhrases (texts : List TextItem) (ytol xtol : ℚ) : List ServerPhrase :=
  ((serverLines texts ytol).map
    (fun line => (serverLineGroups line xtol).map mkServerPhrase)).flatten

theorem leYX_trans : ∀ a b c, leYX a b = true → leYX b c = true → leYX a c = true := by
  intro a b c h1 h2
  rw [leYX, decide_eq_true_eq] at h1 h2 ⊢
  rcases h1 with h1 | ⟨e1, l1⟩
  · rcases h2 with h2 | ⟨e2, _⟩
    · exact Or.inl (h1.trans h2)
    · exact Or.inl (e2 ▸ h1)
  · rcases h2 with h2 | ⟨e2, l2⟩
    · exact Or.inl (e1 ▸ h2)
    · exact Or.inr ⟨e1.trans e2, l1.trans l2⟩

theorem leYX_total : ∀ a b, leYX a b = true ∨ leYX b a = true := by
  intro a b
  rw [leYX, leYX, decide_eq_true_eq, decide_eq_true_eq]
  rcases lt_trichotomy a.y b.y with h | h | h
  · exact Or.inl (Or.inl h)
  · rcases le_total a.x b.x with h2 | h2
    · exact Or.inl (Or.inr ⟨h, h2⟩)
    · exact Or.inr (Or.inr ⟨h.symm, h2⟩)
  · exact Or.inr (Or.inl h)

theorem leX_trans : ∀ a b c, leX a b = true → leX b c = true → leX a c = true := by
  intro a b c h1 h2
  rw [leX, decide_eq_true_eq] at h1 h2 ⊢
  exact h1.trans h2

theorem leX_total : ∀ a b, leX a b = true ∨ leX b a = true := by
  intro a b
  rw [leX, leX, decide_eq_true_eq, decide_eq_true_eq]
  exact le_total a.x b.x

/-- Three boxes with `y = 0, 1, 2`: each consecutive jump is within
`τ_y = 1` but the total spread is 2. -/
def spreadBox0 : TextItem :=
  { text := "s0", confidence := 90, x := 0, y := 0, width := 1, height := 1 }

def spreadBox1 : TextItem :=
  { text := "s1", confidence := 90, x := 0, y := 1, width := 1, height := 1 }

def spreadBox2 : TextItem :=
  { text := "s2", confidence := 90, x := 0, y := 2, width := 1, height := 1 }

/-- C5.  The Line Grouper chains on the **last box added**: the sorted
input splits exactly into the produced lines, inside a line every
consecutive pair satisfies `|Δy| ≤ τ_y`, at every line boundary the
comparison with the last added box fails, and the same holds for the
used-filtered per-pass lines of `group_multiline_texts`; consequently a
single line's total vertical spread can exceed `τ_y` (boxes at
`y = 0, 1, 2` with `τ_y = 1` form one line of spread 2). -/
theorem claim_C5_line_grouper_chained (texts : List TextItem) (ytol : ℚ)
    (used : Finset ℕ) (items : List (ℕ × TextItem)) :
    ((serverLines texts ytol).flatten = pySort leYX texts) ∧
    (∀ L ∈ serverLines texts ytol, List.Chain' (fun a b => |b.y - a.y| ≤ ytol) L) ∧
    List.Chain' (fun L1 L2 => ∃ a b, L1.getLast? = some a ∧ L2.head? = some b ∧
      ¬(|b.y - a.y| ≤ ytol)) (serverLines texts ytol) ∧
    ((enhancedLines ytol used items).flatten =
      items.filter (fun it => decide (it.1 ∉ used))) ∧
    (∀ L ∈ enhancedLines ytol used items,
      List.Chain' (fun a b => |b.2.y - a.2.y| ≤ ytol) L) ∧
    List.Chain' (fun L1 L2 => ∃ a b, L1.getLast? = some a ∧ L2.head? = some b ∧
      ¬(|b.2.y - a.2.y| ≤ ytol)) (enhancedLines ytol used items) ∧
    (serverLines [spreadBox0, spreadBox1, spreadBox2] 1 =
      [[spreadBox0, spreadBox1, spreadBox2]] ∧
      spreadBox2.y - spreadBox0.y = 2 ∧ ¬((2 : ℚ) ≤ 1)) := by
  refine ⟨?_, ?_, ?_, ?_, ?_, ?_, ?_, ?_, ?_⟩
  · simpa using chainGroup_flatten (closeYS ytol) (pySort leYX texts) []
  · intro L hL
    have := chainGroup_chain (closeYS ytol) (pySort leYX texts) [] (by simp) L hL
    exact this.imp (fun h => by simpa [closeYS] using h)
  · have := (chainGroup_break (closeYS ytol) (pySort leYX texts) []).1
    refine this.imp ?_
    rintro L1 L2 ⟨a, b, h1, h2, h3⟩
    refine ⟨a, b, h1, h2, ?_⟩
    have h4 : ytol < |b.y - a.y| := by simpa [closeYS] using h3
    exact not_le.mpr h4
  · show (enhancedLines ytol used items).flatten = _
    rw [enhancedLines]
    simpa using chainGroup_flatten (closeYE ytol)
      (items.filter (fun it => decide (it.1 ∉ used))) []
  · intro L hL
    rw [enhancedLines] at hL
    have := chainGroup_chain (closeYE ytol)
      (items.filter (fun it => decide (it.1 ∉ used))) [] (by simp) L hL
    exact this.imp (fun h => by simpa [closeYE] using h)
  · rw [enhancedLines]
    have := (chainGroup_break (closeYE ytol)
      (items.filter (fun it => decide (it.1 ∉ used))) []).1
    refine this.imp ?_
    rintro L1 L2 ⟨a, b, h1, h2, h3⟩
    refine ⟨a, b, h1, h2, ?_⟩
    have h4 : ytol < |b.2.y - a.2.y| := by simpa [closeYE] using h3
    exact not_le.mpr h4
  · norm_num [serverLines, pySort, stableInsert, chainGroup, closeYS, leYX,
      spreadBox0, spreadBox1, spreadBox2]
  · norm_num [spreadBox0, spreadBox2]
  · norm_num

theorem claim_C5_line_grouper_chained_witness :
    [spreadBox0, spreadBox1, spreadBox2] ∈ serverLines [spreadBox0, spreadBox1, spreadBox2] 1 ∧
    List.Chain' (fun a b => |b.y - a.y| ≤ (1 : ℚ)) [spreadBox0, spreadBox1, spreadBox2] := by
  have h := claim_C5_line_grouper_chained [spreadBox0, spreadBox1, spreadBox2] 1 ∅ []
  have hline : serverLines [spreadBox0, spreadBox1, spreadBox2] 1 =
      [[spreadBox0, spreadBox1, spreadBox2]] := h.2.2.2.2.2.2.1
  have hmem : [spreadBox0, spreadBox1, spreadBox2] ∈
      serverLines [spreadBox0, spreadBox1, spreadBox2] 1 := by
    rw [hline]; simp
  exact ⟨hmem, h.2.1 [spreadBox0, spreadBox1, spreadBox2] hmem⟩

/-- Two sorted lists that are permutations of each other and whose `x`
keys are injective on their elements are equal. -/
theorem sorted_eq_of_perm_of_injKey :
    ∀ (l1 l2 : List TextItem), l1.Perm l2 →
      List.Pairwise (fun a b => leX a b = true) l1 →
      List.Pairwise (fun a b => leX a b = true) l2 →
      (∀ a ∈ l1, ∀ b ∈ l1, a ≠ b → a.x ≠ b.x) → l1 = l2 := by
  intro l1
  induction l1 with
  | nil =>
    intro l2 hp _ _ _
    exact (List.Perm.eq_nil hp.symm).symm
  | cons a t1 ih =>
    intro l2 hp hs1 hs2 hinj
    cases l2 with
    | nil => exact absurd (List.Perm.eq_nil hp) (by simp)
    | cons b t2 =>
      have hab : a = b := by
        by_contra hne
        have hbmem : b ∈ t1 := by
          have : b ∈ a :: t1 := hp.mem_iff.mpr (by simp)
          rcases List.mem_cons.mp this with h | h
          · exact absurd h.symm hne
          · exact h
        have hamem : a ∈ t2 := by
          have : a ∈ b :: t2 := hp.mem_iff.mp (by simp)
          rcases List.mem_cons.mp this with h | h
          · exact absurd h hne
          · exact h
        have h1 : leX a b = true := (List.pairwise_cons.mp hs1).1 b hbmem
        have h2 : leX b a = true := (List.pairwise_cons.mp hs2).1 a hamem
        rw [leX, decide_eq_true_eq] at h1 h2
        exact hinj a (by simp) b (by simp [hbmem]) hne (le_antisymm h1 h2)
      subst hab
      have ht : t1.Perm t2 := hp.cons_inv
      rw [ih t2 ht (List.Pairwise.of_cons hs1) (List.Pairwise.of_cons hs2)
        (fun x hx y hy hxy => hinj x (List.mem_cons_of_mem _ hx)
          y (List.mem_cons_of_mem _ hy) hxy)]

/-- Sorting by `x` is insensitive to the input order when the `x` keys are
distinct. -/
theorem pySort_leX_eq_of_perm (l1 l2 : List TextItem) (hp : l1.Perm l2)
    (hinj : ∀ a ∈ l1, ∀ b ∈ l1, a ≠ b → a.x ≠ b.x) :
    pySort leX l1 = pySort leX l2 := by
  refine sorted_eq_of_perm_of_injKey (pySort leX l1) (pySort leX l2)
    ((pySort_perm leX l1).trans (hp.trans (pySort_perm leX l2).symm))
    (pySort_sorted leX leX_trans leX_total l1)
    (pySort_sorted leX leX_trans leX_total l2) ?_
  intro a ha b hb hne
  exact hinj a ((pySort_perm leX l1).mem_iff.mp ha)
    b ((pySort_perm leX l1).mem_iff.mp hb) hne

/-- Left word of the inclusive-boundary example: right edge at `x = 10`. -/
def gapBoxL : TextItem :=
  { text := "GAP", confidence := 90, x := 0, y := 0, width := 10, height := 5 }

/-- Right word of the inclusive-boundary example: its gap to `gapBoxL`'s
right edge is exactly 50. -/
def gapBoxR : TextItem :=
  { text := "EQ", confidence := 90, x := 60, y := 0, width := 5, height := 5 }

/-- C6.  The Phrase Builder sorts a line by `x` and merges consecutive
words exactly when the gap from the previous word's right edge is
`≤ τ_x` — a gap of exactly `τ_x` merges, a larger one starts a new
phrase — the members of every produced group are in ascending `x` order
and the phrase text is their space-join, and the output is independent of
the input order whenever the `x` keys are distinct. -/
theorem claim_C6_phrase_builder (line l1 l2 : List TextItem) (xtol : ℚ) :
    ((serverLineGroups line xtol).flatten = pySort leX line) ∧
    (∀ g ∈ serverLineGroups line xtol,
      List.Chain' (fun a b => b.x - (a.x + a.width) ≤ xtol) g) ∧
    List.Chain' (fun g1 g2 => ∃ a b, g1.getLast? = some a ∧ g2.head? = some b ∧
      ¬(b.x - (a.x + a.width) ≤ xtol)) (serverLineGroups line xtol) ∧
    (∀ g ∈ serverLineGroups line xtol,
      List.Pairwise (fun a b => a.x ≤ b.x) g ∧
      (mkServerPhrase g).text = String.intercalate " " (g.map TextItem.text)) ∧
    (l1.Perm l2 → (∀ a ∈ l1, ∀ b ∈ l1, a ≠ b → a.x ≠ b.x) →
      serverLineGroups l1 xtol = serverLineGroups l2 xtol) ∧
    (serverLineGroups [gapBoxL, gapBoxR] 50 = [[gapBoxL, gapBoxR]] ∧
      gapBoxR.x - (gapBoxL.x + gapBoxL.width) = 50) := by
  refine ⟨?_, ?_, ?_, ?_, ?_, ?_, ?_⟩
  · simpa using chainGroup_flatten (closeXS xtol) (pySort leX line) []
  · intro g hg
    have := chainGroup_chain (closeXS xtol) (pySort leX line) [] (by simp) g hg
    exact this.imp (fun h => by simpa [closeXS] using h)
  · have := (chainGroup_break (closeXS xtol) (pySort leX line) []).1
    refine this.imp ?_
    rintro g1 g2 ⟨a, b, h1, h2, h3⟩
    refine ⟨a, b, h1, h2, ?_⟩
    have h4 : xtol + (a.x + a.width) < b.x := by simpa [closeXS] using h3
    exact not_le.mpr (by linarith)
  · intro g hg
    constructor
    · have hsub : g.Sublist (pySort leX line) := by
        have := List.sublist_flatten_of_mem hg
        rwa [serverLineGroups, chainGroup_flatten, List.reverse_nil, List.nil_append] at this
      have hsorted := pySort_sorted leX leX_trans leX_total line
      have := hsorted.sublist hsub
      exact this.imp (fun h => by simpa [leX] using h)
    · rfl
  · intro hp hinj
    rw [serverLineGroups, serverLineGroups, pySort_leX_eq_of_perm l1 l2 hp hinj]
  · norm_num [serverLineGroups, pySort, stableInsert, chainGroup, closeXS, leX,
      gapBoxL, gapBoxR]
  · norm_num [gapBoxL, gapBoxR]

theorem claim_C6_phrase_builder_witness :
    [gapBoxL, gapBoxR] ∈ serverLineGroups [gapBoxL, gapBoxR] 50 ∧
    List.Pairwise (fun a b => a.x ≤ b.x) [gapBoxL, gapBoxR] ∧
    (mkServerPhrase [gapBoxL, gapBoxR]).text =
      String.intercalate " " ([gapBoxL, gapBoxR].map TextItem.text) ∧
    ([gapBoxR, gapBoxL].Perm [gapBoxL, gapBoxR] ∧
      serverLineGroups [gapBoxR, gapBoxL] 50 = serverLineGroups [gapBoxL, gapBoxR] 50) := by
  have h := claim_C6_phrase_builder [gapBoxL, gapBoxR] [gapBoxR, gapBoxL] [gapBoxL, gapBoxR] 50
  have hgroups : serverLineGroups [gapBoxL, gapBoxR] 50 = [[gapBoxL, gapBoxR]] :=
    h.2.2.2.2.2.1
  have hmem : [gapBoxL, gapBoxR] ∈ serverLineGroups [gapBoxL, gapBoxR] 50 := by
    rw [hgroups]; simp
  have hperm : ([gapBoxR, gapBoxL] : List TextItem).Perm [gapBoxL, gapBoxR] :=
    List.Perm.swap _ _ _
  refine ⟨hmem, (h.2.2.2.1 [gapBoxL, gapBoxR] hmem).1,
    (h.2.2.2.1 [gapBoxL, gapBoxR] hmem).2, hperm, ?_⟩
  refine h.2.2.2.2.1 hperm ?_
  intro a ha b hb hne
  rcases List.mem_cons.mp ha with rfl | ha2
  · rcases List.mem_cons.mp hb with rfl | hb2
    · exact absurd rfl hne
    · simp at hb2
      subst hb2
      norm_num [gapBoxL, gapBoxR]
  · simp at ha2
    subst ha2
    rcases List.mem_cons.mp hb with rfl | hb2
    · norm_num [gapBoxL, gapBoxR]
    · simp at hb2
      subst hb2
      exact absurd rfl hne

theorem foldl_min_spec :
    ∀ (vs : List ℚ) (v : ℚ),
      (vs.foldl min v = v ∨ vs.foldl min v ∈ vs) ∧ vs.foldl min v ≤ v ∧
      ∀ u ∈ vs, vs.foldl min v ≤ u := by
  intro vs
  induction vs with
  | nil => intro v; simp
  | cons u vs ih =>
    intro v
    obtain ⟨ih1, ih2, ih3⟩ := ih (min v u)
    rw [List.foldl_cons]
    refine ⟨?_, ih2.trans (min_le_left v u), ?_⟩
    · rcases ih1 with h | h
      · rcases min_choice v u with hc | hc
        · exact Or.inl (h.trans hc)
        · exact Or.inr (by rw [h, hc]; simp)
      · exact Or.inr (by simp [h])
    · intro w hw
      rcases List.mem_cons.mp hw with rfl | hw2
      · exact ih2.trans (min_le_right v w)
      · exact ih3 w hw2

theorem foldl_max_spec :
    ∀ (vs : List ℚ) (v : ℚ),
      (vs.foldl max v = v ∨ vs.foldl max v ∈ vs) ∧ v ≤ vs.foldl max v ∧
      ∀ u ∈ vs, u ≤ vs.foldl max v := by
  intro vs
  induction vs with
  | nil => intro v; simp
  | cons u vs ih =>
    intro v
    obtain ⟨ih1, ih2, ih3⟩ := ih (max v u)
    rw [List.foldl_cons]
    refine ⟨?_, (le_max_left v u).trans ih2, ?_⟩
    · rcases ih1 with h | h
      · rcases max_choice v u with hc | hc
        · exact Or.inl (h.trans hc)
        · exact Or.inr (by rw [h, hc]; simp)
      · exact Or.inr (by simp [h])
    · intro w hw
      rcases List.mem_cons.mp hw with rfl | hw2
      · exact (le_max_right v w).trans ih2
      · exact ih3 w hw2

theorem minList_spec (l : List ℚ) (h : l ≠ []) :
    minList l ∈ l ∧ ∀ v ∈ l, minList l ≤ v := by
  cases l with
  | nil => exact absurd rfl h
  | cons v vs =>
    obtain ⟨h1, h2, h3⟩ := foldl_min_spec vs v
    refine ⟨?_, ?_⟩
    · rw [minList]
      rcases h1 with hc | hc
      · rw [hc]; simp
      · simp [hc]
    · intro u hu
      rcases List.mem_cons.mp hu with rfl | hu2
      · exact h2
      · exact h3 u hu2

theorem maxList_spec (l : List ℚ) (h : l ≠ []) :
    maxList l ∈ l ∧ ∀ v ∈ l, v ≤ maxList l := by
  cases l with
  | nil => exact absurd rfl h
  | cons v vs =>
    obtain ⟨h1, h2, h3⟩ := foldl_max_spec vs v
    refine ⟨?_, ?_⟩
    · rw [maxList]
      rcases h1 with hc | hc
      · rw [hc]; simp
      · simp [hc]
    · intro u hu
      rcases List.mem_cons.mp hu with rfl | hu2
      · exact h2
      · exact h3 u hu2

/-- Upper-left word of the ocr_server bbox counterexample: leftmost but
lower (`y = 3`). -/
def bboxA : TextItem :=
  { text := "A", confidence := 90, x := 0, y := 3, width := 5, height := 5 }

/-- Second word: to the right but higher (`y = 0 < 3`). -/
def bboxB : TextItem :=
  { text := "B", confidence := 90, x := 10, y := 0, width := 5, height := 5 }

/-- C8 counterexample.  In `ocr_server.py`'s `group_texts_into_phrases`
the produced phrase dict carries only the leftmost member's coordinates
and no extents: on `[bboxA, bboxB]` (one line, one phrase containing both
words) the phrase's `y` is 3, while the minimal member `y` is 0 — the
phrase's recorded position is not the minimal axis-aligned bounding box
corner the claim asserts for every phrase of the grouping stage. -/
theorem claim_C8_counterexample :
    groupTextsIntoPhrases [bboxA, bboxB] 5 50 =
      [{ text := "A B", confidence := 90, x := 0, y := 3, wordCount := 2 }] ∧
    minList ([bboxA, bboxB].map TextItem.y) = 0 ∧
    ({ text := "A B", confidence := 90, x := 0, y := 3, wordCount := 2 } :
      ServerPhrase).y = 3 ∧
    (3 : ℚ) ≠ 0 := by
  refine ⟨?_, ?_, rfl, by norm_num⟩
  · norm_num [groupTextsIntoPhrases, serverLines, serverLineGroups, mkServerPhrase,
      firstItem, pySort, stableInsert, chainGroup, closeYS, closeXS, leYX, leX,
      bboxA, bboxB]
    decide
  · norm_num [minList, bboxA, bboxB]

/-- C8 amended.  Every phrase of `group_multiline_texts` carries the
minimal axis-aligned bounding box of its member word boxes (`x`/`y` are
the member minima and `x + width` / `y + height` the maxima of the
members' far edges, `minList`/`maxList` being genuine minima/maxima);
`ocr_server.py`'s `group_texts_into_phrases`, by contrast, copies only the
leftmost member's coordinates into the phrase: its `x` still equals the
members' minimal `x`, but its `y` is the leftmost member's `y` (not
necessarily minimal — see the counterexample) and no extents are
recorded. -/
theorem claim_C8_phrase_bbox (texts texts2 : List TextItem) (hi lo : ℤ)
    (xtol ytol2 xtol2 : ℚ) :
    (∀ p ∈ groupMultilineTexts texts hi lo xtol, ∃ g, g ≠ [] ∧
      p.indices = g.map Prod.fst ∧
      p.x = minList (g.map (fun it => it.2.x)) ∧
      p.y = minList (g.map (fun it => it.2.y)) ∧
      p.x + p.width = maxList (g.map (fun it => it.2.x + it.2.width)) ∧
      p.y + p.height = maxList (g.map (fun it => it.2.y + it.2.height)) ∧
      (∀ it ∈ g, it ∈ (pySort leYX texts).enum)) ∧
    (∀ (l : List ℚ), l ≠ [] →
      (minList l ∈ l ∧ ∀ v ∈ l, minList l ≤ v) ∧
      (maxList l ∈ l ∧ ∀ v ∈ l, v ≤ maxList l)) ∧
    (∀ q ∈ groupTextsIntoPhrases texts2 ytol2 xtol2, ∃ g, g ≠ [] ∧
      q = mkServerPhrase g ∧ q.x = minList (g.map TextItem.x)) := by
  refine ⟨?_, fun l hl => ⟨minList_spec l hl, maxList_spec l hl⟩, ?_⟩
  · intro p hp
    have hnodup : (((pySort leYX texts).enum).map Prod.fst).Nodup := by
      rw [List.enum_map_fst]
      exact List.nodup_range _
    obtain ⟨newPs, h1, _, _, _, h5⟩ :=
      runPasses_spec xtol (toleranceSchedule hi lo) ((pySort leYX texts).enum) ∅ [] hnodup
    have hps : groupMultilineTexts texts hi lo xtol = newPs := by
      rw [groupMultilineTexts, h1, List.nil_append]
    rw [hps] at hp
    obtain ⟨t, g, _, hgne, rfl, hgmem⟩ := h5 p hp
    refine ⟨g, hgne, rfl, rfl, rfl, ?_, ?_, hgmem⟩
    · show minList (g.map (fun it => it.2.x)) +
        (maxList (g.map (fun it => it.2.x + it.2.width)) -
          minList (g.map (fun it => it.2.x))) = _
      ring
    · show minList (g.map (fun it => it.2.y)) +
        (maxList (g.map (fun it => it.2.y + it.2.height)) -
          minList (g.map (fun it => it.2.y))) = _
      ring
  · intro q hq
    rw [groupTextsIntoPhrases, List.mem_flatten] at hq
    obtain ⟨qs, hqs, hqqs⟩ := hq
    rcases List.mem_map.mp hqs with ⟨line, hline, rfl⟩
    rcases List.mem_map.mp hqqs with ⟨g, hg, rfl⟩
    have hgne : g ≠ [] := chainGroup_groups_ne_nil _ _ _ g hg
    refine ⟨g, hgne, rfl, ?_⟩
    -- g is ascending in x, so its head's x is the minimum
    have hsub : g.Sublist (pySort leX line) := by
      have := List.sublist_flatten_of_mem hg
      rwa [serverLineGroups, chainGroup_flatten, List.reverse_nil, List.nil_append] at this
    have hasc : List.Pairwise (fun a b => a.x ≤ b.x) g := by
      have := (pySort_sorted leX leX_trans leX_total line).sublist hsub
      exact this.imp (fun h => by simpa [leX] using h)
    cases g with
    | nil => exact absurd rfl hgne
    | cons a rest =>
      have hmin := minList_spec ((a :: rest).map TextItem.x) (by simp)
      have hhead : ∀ v ∈ (a :: rest).map TextItem.x, a.x ≤ v := by
        intro v hv
        rcases List.mem_map.mp hv with ⟨b, hb, rfl⟩
        rcases List.mem_cons.mp hb with rfl | hb2
        · exact le_refl _
        · exact (List.pairwise_cons.mp hasc).1 b hb2
      have h1 : a.x ≤ minList ((a :: rest).map TextItem.x) := hhead _ hmin.1
      have h2 : minList ((a :: rest).map TextItem.x) ≤ a.x :=
        hmin.2 a.x (by simp)
      show (firstItem (a :: rest)).x = _
      rw [firstItem]
      exact le_antisymm h2 h1 |>.symm

theorem claim_C8_phrase_bbox_witness :
    ({ text := "A B", confidence := 90, x := 0, y := 3, wordCount := 2 } : ServerPhrase) ∈
      groupTextsIntoPhrases [bboxA, bboxB] 5 50 ∧
    (∃ g, g ≠ [] ∧
      ({ text := "A B", confidence := 90, x := 0, y := 3, wordCount := 2 } : ServerPhrase) =
        mkServerPhrase g ∧
      ({ text := "A B", confidence := 90, x := 0, y := 3, wordCount := 2 } :
        ServerPhrase).x = minList (g.map TextItem.x)) ∧
    ([(3 : ℚ), 0] ≠ []) ∧
    (minList [(3 : ℚ), 0] ∈ [(3 : ℚ), 0] ∧ ∀ v ∈ [(3 : ℚ), 0], minList [(3 : ℚ), 0] ≤ v) := by
  have hmem : ({ text := "A B", confidence := 90, x := 0, y := 3, wordCount := 2 } :
      ServerPhrase) ∈ groupTextsIntoPhrases [bboxA, bboxB] 5 50 := by
    norm_num [groupTextsIntoPhrases, serverLines, serverLineGroups, mkServerPhrase,
      firstItem, pySort, stableInsert, chainGroup, closeYS, closeXS, leYX, leX,
      bboxA, bboxB]
    decide
  have h := claim_C8_phrase_bbox [] [bboxA, bboxB] 10 1 50 5 50
  exact ⟨hmem, h.2.2 _ hmem, by simp,
    (h.2.1 [(3 : ℚ), 0] (by simp)).1⟩

/-! ## The Multiline Joiner (`run_enhanced_multi_scan.py` lines 207-277) -/

/-- Python `str.isdigit()`: nonempty and all digits. -/
def isDigitsStr (l : List Char) : Bool :=
  !l.isEmpty && l.all Char.isDigit

/-- Python `str.strip()` at the character-list level: drop whitespace from
both ends. -/
def stripChars (l : List Char) : List Char :=
  ((l.dropWhile Char.isWhitespace).reverse.dropWhile Char.isWhitespace).reverse

/-- `is_room_code(text)` (`run_enhanced_multi_scan.py` lines 265-277): a
`T`-prefixed token whose remainder with dots removed is all digits
(`t.startswith('T') and len(t) > 1 and t[1:].replace('.', '').isdigit()`),
or a pure number once dots, commas and spaces are removed. -/
def isRoomCode (s : String) : Bool :=
  ((match stripChars s.data with
    | c :: _ => decide (c = 'T')
    | [] => false) && decide (1 < (stripChars s.data).length) &&
    isDigitsStr ((stripChars s.data).tail.filter (fun c => decide (c ≠ '.')))) ||
  isDigitsStr ((stripChars s.data).filter
    (fun c => decide (c ≠ '.') && decide (c ≠ ',') && decide (c ≠ ' ')))

/-- `"RM" in phrase2['text'].upper()`, with `.upper()` as a character-wise
`Char.toUpper` and `in` as contiguous substring. -/
def containsRM (s : String) : Bool :=
  decide (['R', 'M'] <:+: s.data.map Char.toUpper)

/-- The join test of `identify_multiline_room_names` (lines 227-235):
`x_diff < horizontal_threshold`, `0 < y_diff < vertical_threshold` with
`y_diff = phrase2['y'] - phrase1['y']`, and
`not is_room_code(phrase2['text']) or "RM" in phrase2['text'].upper()`. -/
def joinCond (vthr hthr : ℚ) (p1 p2 : TextItem) : Bool :=
  decide (|p1.x - p2.x| < hthr) && decide (0 < p2.y - p1.y) &&
    decide (p2.y - p1.y < vthr) && (!(isRoomCode p2.text) || containsRM p2.text)

/-- A `multiline_rooms` entry (lines 244-261). -/
structure RoomLabel where
  text : String
  confidence : ℚ
  x : ℚ
  y : ℚ
  parts : ℕ
  multiline : Bool
deriving DecidableEq, Repr

/-- `sorted(phrases, key=lambda p: (p['x'], p['y']))`. -/
def leXY (a b : TextItem) : Bool :=
  decide (a.x < b.x ∨ (a.x = b.x ∧ a.y ≤ b.y))

/-- `room_parts.sort(key=lambda p: p['y'])`. -/
def leY (a b : TextItem) : Bool :=
  decide (a.y ≤ b.y)

/-- The inner scan (lines 223-235): collect every phrase with enumeration
index `> i` that is not yet used and satisfies the join test against the
seed `p1`, marking it used. -/
def collectParts (vthr hthr : ℚ) (i : ℕ) (p1 : TextItem) :
    List (ℕ × TextItem) → Finset ℕ → List (ℕ × TextItem) × Finset ℕ
  | [], used => ([], used)
  | (j, p2) :: rest, used =>
    if j ≤ i ∨ j ∈ used then collectParts vthr hthr i p1 rest used
    else if joinCond vthr hthr p1 p2 then
      let r := collectParts vthr hthr i p1 rest (insert j used)
      ((j, p2) :: r.1, r.2)
    else collectParts vthr hthr i p1 rest used

/-- Label construction (lines 237-261): several parts are sorted
top-to-bottom by `y`, joined with spaces, confidence-averaged and anchored
at the topmost part; a single part passes through with `parts = 1`. -/
def mkRoomLabel (ps : List TextItem) : RoomLabel :=
  match ps with
  | [] => { text := "", confidence := 0, x := 0, y := 0, parts := 0, multiline := false }
  | [p] =>
    { text := p.text, confidence := p.confidence, x := p.x, y := p.y,
      parts := 1, multiline := false }
  | _ :: _ :: _ =>
    { text := String.intercalate " " ((pySort leY ps).map TextItem.text)
      confidence := (ps.map TextItem.confidence).sum / ps.length
      x := (firstItem (pySort leY ps)).x
      y := (firstItem (pySort leY ps)).y
      parts := ps.length
      multiline := true }

/-- The outer loop of `identify_multiline_room_names` over the
`(x, y)`-sorted, enumerated phrases. -/
def imRoomsGo (vthr hthr : ℚ) (all : List (ℕ × TextItem)) :
    List (ℕ × TextItem) → Finset ℕ → List RoomLabel
  | [], _ => []
  | (i, p1) :: rest, used =>
    if i ∈ used then imRoomsGo vthr hthr all rest used
    else
      let r := collectParts vthr hthr i p1 all (insert i used)
      mkRoomLabel (p1 :: r.1.map Prod.snd) :: imRoomsGo vthr hthr all rest r.2

/-- `identify_multiline_room_names(phrases, vertical_threshold,
horizontal_threshold)`. -/
def identifyMultilineRoomNames (phrases : List TextItem) (vthr hthr : ℚ) :
    List RoomLabel :=
  imRoomsGo vthr hthr (pySort leXY phrases).enum (pySort leXY phrases).enum ∅

/-- The claim's own notion of a structured code, following its words: a
letter-plus-digits token, or a pure number (ignoring dots, commas and
spaces).  Kept for comparison with the source's `is_room_code`, which
accepts only `'T'` as the leading letter. -/
def specStructuredCode (s : String) : Bool :=
  (match stripChars s.data with
    | c :: rest => c.isAlpha && isDigitsStr rest
    | [] => false) ||
  isDigitsStr ((stripChars s.data).filter
    (fun c => decide (c ≠ '.') && decide (c ≠ ',') && decide (c ≠ ' ')))

/-- Upper phrase of the letter-code counterexample and of scenario 3. -/
def mechBox : TextItem :=
  { text := "MECH", confidence := 90, x := 100, y := 200, width := 0, height := 0 }

/-- A lower phrase that is a letter-plus-digits token without "RM". -/
def codeBox : TextItem :=
  { text := "A12", confidence := 90, x := 100, y := 215, width := 0, height := 0 }

/-- Lower phrase of scenario 3. -/
def rmBox : TextItem :=
  { text := "RM", confidence := 90, x := 100, y := 215, width := 0, height := 0 }

/-- C7 counterexample.  The source's code-exclusion only rejects
`T`-prefixed codes and pure numbers, not arbitrary letter-plus-digits
tokens: the lower phrase `"A12"` is a letter-plus-digits token without
"RM" (so by the claim's condition it must not join), yet the join test
accepts it and `identify_multiline_room_names` absorbs it into the label
`"MECH A12"` with two parts. -/
theorem claim_C7_counterexample :
    specStructuredCode "A12" = true ∧
    containsRM "A12" = false ∧
    joinCond 40 120 mechBox codeBox = true ∧
    identifyMultilineRoomNames [mechBox, codeBox] 40 120 =
      [{ text := "MECH A12", confidence := 90, x := 100, y := 200,
         parts := 2, multiline := true }] := by
  have hrc : isRoomCode "A12" = false := by decide
  refine ⟨by decide, by decide, ?_, ?_⟩
  · norm_num [joinCond, hrc, mechBox, codeBox]
  · norm_num [identifyMultilineRoomNames, imRoomsGo, collectParts, mkRoomLabel,
      joinCond, hrc, firstItem, pySort, stableInsert, leXY, leY, mechBox, codeBox,
      List.enum, List.enumFrom]
    decide

theorem collectParts_mem_iff (vthr hthr : ℚ) (i : ℕ) (p1 : TextItem) :
    ∀ (l : List (ℕ × TextItem)) (used : Finset ℕ),
      (l.map Prod.fst).Nodup →
      ∀ j p2, ((j, p2) ∈ (collectParts vthr hthr i p1 l used).1 ↔
        ((j, p2) ∈ l ∧ i < j ∧ j ∉ used ∧ joinCond vthr hthr p1 p2 = true)) := by
  intro l
  induction l with
  | nil =>
    intro used _ j p2
    simp [collectParts]
  | cons kq rest ih =>
    intro used hnd j p2
    obtain ⟨k, q⟩ := kq
    rw [List.map_cons, List.nodup_cons] at hnd
    obtain ⟨hknot, hndrest⟩ := hnd
    by_cases hskip : k ≤ i ∨ k ∈ used
    · have hstep : collectParts vthr hthr i p1 ((k, q) :: rest) used =
          collectParts vthr hthr i p1 rest used := by
        rw [collectParts, if_pos hskip]
      rw [hstep, ih used hndrest j p2]
      constructor
      · rintro ⟨hmem, h2, h3, h4⟩
        exact ⟨List.mem_cons_of_mem _ hmem, h2, h3, h4⟩
      · rintro ⟨hmem, h2, h3, h4⟩
        rcases List.mem_cons.mp hmem with heq | hmem2
        · obtain ⟨rfl, rfl⟩ := Prod.mk.injEq .. ▸ And.intro
            (congrArg Prod.fst heq) (congrArg Prod.snd heq)
          rcases hskip with h | h
          · omega
          · exact absurd h h3
        · exact ⟨hmem2, h2, h3, h4⟩
    · by_cases hjoin : joinCond vthr hthr p1 q = true
      · have hstep : (collectParts vthr hthr i p1 ((k, q) :: rest) used).1 =
            (k, q) :: (collectParts vthr hthr i p1 rest (insert k used)).1 := by
          rw [collectParts, if_neg hskip, if_pos hjoin]
        rw [hstep]
        push_neg at hskip
        obtain ⟨hki, hku⟩ := hskip
        constructor
        · intro hmem
          rcases List.mem_cons.mp hmem with heq | hmem2
          · obtain ⟨rfl, rfl⟩ := Prod.mk.injEq .. ▸ And.intro
              (congrArg Prod.fst heq) (congrArg Prod.snd heq)
            exact ⟨by simp, by omega, hku, hjoin⟩
          · obtain ⟨hmem3, h2, h3, h4⟩ := (ih (insert k used) hndrest j p2).mp hmem2
            refine ⟨List.mem_cons_of_mem _ hmem3, h2, ?_, h4⟩
            intro hu
            exact h3 (Finset.mem_insert_of_mem hu)
        · rintro ⟨hmem, h2, h3, h4⟩
          rcases List.mem_cons.mp hmem with heq | hmem2
          · exact List.mem_cons.mpr (Or.inl heq)
          · refine List.mem_cons.mpr (Or.inr ?_)
            refine (ih (insert k used) hndrest j p2).mpr ⟨hmem2, h2, ?_, h4⟩
            have hjk : j ≠ k := by
              intro hjk
              subst hjk
              exact hknot (List.mem_map.mpr ⟨(j, p2), hmem2, rfl⟩)
            intro hu
            rcases Finset.mem_insert.mp hu with h | h
            · exact hjk h
            · exact h3 h
      · have hstep : collectParts vthr hthr i p1 ((k, q) :: rest) used =
            collectParts vthr hthr i p1 rest used := by
          rw [collectParts, if_neg hskip, if_neg hjoin]
        rw [hstep, ih used hndrest j p2]
        constructor
        · rintro ⟨hmem, h2, h3, h4⟩
          exact ⟨List.mem_cons_of_mem _ hmem, h2, h3, h4⟩
        · rintro ⟨hmem, h2, h3, h4⟩
          rcases List.mem_cons.mp hmem with heq | hmem2
          · obtain ⟨rfl, rfl⟩ := Prod.mk.injEq .. ▸ And.intro
              (congrArg Prod.fst heq) (congrArg Prod.snd heq)
            exact absurd h4 hjoin
          · exact ⟨hmem2, h2, h3, h4⟩

/-- C7 amended.  In the Multiline Joiner a lower phrase joins an upper
phrase exactly when their `x` positions differ by less than
`horizontal_threshold`, the vertical offset is strictly between 0 and
`vertical_threshold`, and the lower phrase is not a structured code *in the
code's sense* — a `'T'`-prefixed digits token (dots ignored) or a pure
number (dots, commas, spaces ignored) — unless its text contains "RM",
which overrides the exclusion; the inner scan absorbs exactly the
not-yet-used later-indexed phrases satisfying that test, and scenario 3
("MECH" at (100,200), "RM" at (100,215), thresholds 40/120) yields the
single label "MECH RM" with `parts = 2`. -/
theorem claim_C7_multiline_join (vthr hthr : ℚ) (p1 p2 : TextItem)
    (l : List (ℕ × TextItem)) (used : Finset ℕ) (i j : ℕ)
    (hnd : (l.map Prod.fst).Nodup) :
    (joinCond vthr hthr p1 p2 = true ↔
      (|p1.x - p2.x| < hthr ∧ 0 < p2.y - p1.y ∧ p2.y - p1.y < vthr ∧
        (isRoomCode p2.text = false ∨ containsRM p2.text = true))) ∧
    ((j, p2) ∈ (collectParts vthr hthr i p1 l used).1 ↔
      ((j, p2) ∈ l ∧ i < j ∧ j ∉ used ∧ joinCond vthr hthr p1 p2 = true)) ∧
    identifyMultilineRoomNames [mechBox, rmBox] 40 120 =
      [{ text := "MECH RM", confidence := 90, x := 100, y := 200,
         parts := 2, multiline := true }] := by
  refine ⟨?_, collectParts_mem_iff vthr hthr i p1 l used hnd j p2, ?_⟩
  · rw [joinCond]
    simp only [Bool.and_eq_true, decide_eq_true_eq, Bool.or_eq_true, Bool.not_eq_true']
    constructor
    · rintro ⟨⟨⟨h1, h2⟩, h3⟩, h4⟩
      exact ⟨h1, h2, h3, h4⟩
    · rintro ⟨h1, h2, h3, h4⟩
      exact ⟨⟨⟨h1, h2⟩, h3⟩, h4⟩
  · have hrm : isRoomCode "RM" = false := by decide
    norm_num [identifyMultilineRoomNames, imRoomsGo, collectParts, mkRoomLabel,
      joinCond, hrm, firstItem, pySort, stableInsert, leXY, leY, mechBox, rmBox,
      List.enum, List.enumFrom]
    decide

theorem claim_C7_multiline_join_witness :
    (([(0, mechBox), (1, rmBox)].map Prod.fst).Nodup) ∧
    (joinCond 40 120 mechBox rmBox = true ↔
      (|mechBox.x - rmBox.x| < 120 ∧ 0 < rmBox.y - mechBox.y ∧
        rmBox.y - mechBox.y < 40 ∧
        (isRoomCode rmBox.text = false ∨ containsRM rmBox.text = true))) ∧
    ((1, rmBox) ∈ (collectParts 40 120 0 mechBox [(0, mechBox), (1, rmBox)] ∅).1 ↔
      ((1, rmBox) ∈ [(0, mechBox), (1, rmBox)] ∧ 0 < 1 ∧ (1 : ℕ) ∉ (∅ : Finset ℕ) ∧
        joinCond 40 120 mechBox rmBox = true)) ∧
    identifyMultilineRoomNames [mechBox, rmBox] 40 120 =
      [{ text := "MECH RM", confidence := 90, x := 100, y := 200,
         parts := 2, multiline := true }] := by
  have h := claim_C7_multiline_join 40 120 mechBox rmBox
    [(0, mechBox), (1, rmBox)] ∅ 0 1 (by decide)
  exact ⟨by decide, h.1, h.2.1, h.2.2⟩

end MappingSlayer
